import Mathlib

/-!
Verification of the knuth document repository core (document handling module)
against its natural-language specification.

The relational store is modelled as explicit state: a list of Document rows,
a list of Metadata rows and the blob-store directory listing.  The search
index client is modelled as a sink: operations record the calls they issue.
Raised exceptions are modelled as error-valued results.
-/

/-- Python str.isalnum-style word character for the ASCII regex class \w
    used by re.sub in the upload pipeline. -/
def isWordChar (c : Char) : Bool := c.isAlpha || c.isDigit || c == '_'

/-- Python whitespace characters recognised by str.strip. -/
def isSpaceChar (c : Char) : Bool :=
  c == ' ' || c == '\t' || c == '\n' || c == '\r' || c == '\x0b' || c == '\x0c'

/-- Python str.strip: drop whitespace from both ends. -/
def pyStrip (s : String) : String :=
  ⟨((s.data.dropWhile isSpaceChar).reverse.dropWhile isSpaceChar).reverse⟩

/-- Python str.lower (ASCII case folding, as used on filenames). -/
def strLower (s : String) : String := ⟨s.data.map Char.toLower⟩

/-- Python re.sub with a single-character non-word pattern: replaces each
    individual non-word character by one space. -/
def pySubNonWord (s : String) : String :=
  ⟨s.data.map (fun c => if isWordChar c then c else ' ')⟩

/-- Python str.startswith. -/
def strStartsWith (s pre : String) : Bool := pre.data.isPrefixOf s.data

/-- Remove the first occurrence of an element from a list; this models
    deleting one row object from the session. -/
def eraseFirst {α : Type} [DecidableEq α] : List α → α → List α
  | [], _ => []
  | x :: xs, a => if x = a then xs else x :: eraseFirst xs a

/-- A row of the Document table. -/
structure Doc where
  id : Nat
  type : String
  title : String
  author : String
  doi : String
  timestamp : Option Nat
  parent : Option Nat
deriving DecidableEq

/-- A row of the Metadata table. -/
structure MetadataRow where
  document : Nat
  key : String
  value : String
deriving DecidableEq

/-- The three stores mutated by the document module: Document rows,
    Metadata rows, and the names present in the blob-store directory. -/
structure State where
  documents : List Doc
  metadata : List MetadataRow
  blobs : List String
deriving DecidableEq

def emptyState : State := ⟨[], [], []⟩

/-- get_filename: the filename Metadata row is authoritative; otherwise scan
    the blob directory for the first entry starting with the id and a dot. -/
def get_filename (doc_id : Nat) (s : State) : Option String :=
  match s.metadata.find? (fun md => md.key == "filename" && md.document == doc_id) with
  | some md => some md.value
  | none => s.blobs.find? (fun fn => strStartsWith fn (toString doc_id ++ "."))

/-- Python dict assignment on an insertion-ordered association list:
    update in place if the key is present, otherwise append. -/
def dictSet : List (String × String) → String → String → List (String × String)
  | [], k, v => [(k, v)]
  | (k0, v0) :: rest, k, v =>
      if k0 = k then (k0, v) :: rest else (k0, v0) :: dictSet rest k v

/-- Lookup in an association list modelling a Python dict. -/
def lookupVal (m : List (String × String)) (k : String) : Option String :=
  (m.find? (fun kv => kv.1 == k)).map (·.2)

/-- Python truthiness of the parent field (None and 0 are falsy). -/
def truthyParent : Option Nat → Bool
  | none => false
  | some p => p != 0

/-- The keys present in the outer result dict of retrieve_document when its
    metadata loop runs; the loop drops any Metadata row whose key is here. -/
def dataKeysOf (parent : Option Nat) : List String :=
  ["tags", "attachments", "meta", "id", "type", "title", "author", "doi",
   "timestamp", "parent"]
  ++ (if truthyParent parent then ["parent_title"] else []) ++ ["format_date"]

/-- One iteration of the metadata loop of retrieve_document: tag rows are
    appended to the tag list, rows whose key collides with an outer dict key
    are dropped, and every other row is written into the meta dict. -/
def collectMetaStep (doc : Doc) (tm : List String × List (String × String))
    (entry : MetadataRow) : List String × List (String × String) :=
  if entry.key = "tag" then (tm.1 ++ [entry.value], tm.2)
  else if entry.key ∈ dataKeysOf doc.parent then tm
  else (tm.1, dictSet tm.2 entry.key entry.value)

/-- The metadata loop of retrieve_document. -/
def collectMeta (doc : Doc) (rows : List MetadataRow) :
    List String × List (String × String) :=
  rows.foldl (collectMetaStep doc) ([], [])

/-- The record returned by retrieve_document for one document. -/
structure DocData where
  id : Nat
  type : String
  title : String
  author : String
  doi : String
  timestamp : Option Nat
  parent : Option Nat
  parent_title : Option String
  tags : List String
  meta : List (String × String)
  filename : Option String
deriving DecidableEq

/-- retrieve_document with with_attachments=False.  Returns none when the
    code would raise: on a missing document id (attribute access on None)
    or on a truthy parent id whose row is missing. -/
def retrieve_document_noatt (doc_id : Nat) (s : State) : Option DocData :=
  match s.documents.find? (fun d => d.id == doc_id) with
  | none => none
  | some doc =>
    let mds := s.metadata.filter (fun md => md.document == doc_id)
    let ptStep : Option (Option String) :=
      match doc.parent with
      | some p =>
          if p != 0 then
            match s.documents.find? (fun d => d.id == p) with
            | some pd => some (some pd.title)
            | none => none
          else some none
      | none => some none
    match ptStep with
    | none => none
    | some pt =>
      let tm := collectMeta doc mds
      some { id := doc.id, type := doc.type, title := doc.title,
             author := doc.author, doi := doc.doi, timestamp := doc.timestamp,
             parent := doc.parent, parent_title := pt, tags := tm.1,
             meta := tm.2, filename := get_filename doc_id s }

/-- retrieve_document with the default with_attachments=True: additionally
    resolves each child document at depth one. -/
def retrieve_document (doc_id : Nat) (s : State) : Option (DocData × List DocData) :=
  match retrieve_document_noatt doc_id s with
  | none => none
  | some dd =>
    let children := s.documents.filter (fun d => d.parent == some doc_id)
    match children.mapM (fun c => retrieve_document_noatt c.id s) with
    | none => none
    | some atts => some (dd, atts)

/-- The id the relational store assigns to a freshly inserted Document row. -/
def nextId (s : State) : Nat :=
  (s.documents.foldl (fun a d => max a d.id) 0) + 1

/-- Python truthiness of a tag entry (None and the empty string are falsy). -/
def truthyTag : Option String → Bool
  | none => false
  | some t => !(t == "")

/-- The body of the tag loop of create_document: a truthy tag entry inserts
    a tag Metadata row holding its stripped value. -/
def createTagStep (nid : Nat) (st : State) (tag : Option String) : State :=
  if truthyTag tag then
    { st with metadata := st.metadata ++ [⟨nid, "tag", pyStrip (tag.getD "")⟩] }
  else st

/-- create_document: insert the Document row, commit to obtain the id, then
    insert one tag Metadata row for every truthy tag entry, storing the
    stripped value. -/
def create_document (title author doi : String) (tags : List (Option String))
    (ty : String) (parent : Option Nat) (s : State) : Nat × State :=
  let new_id := nextId s
  let doc : Doc := ⟨new_id, ty, title, author, doi, none, parent⟩
  let s1 : State := { s with documents := s.documents ++ [doc] }
  (new_id, tags.foldl (createTagStep new_id) s1)

/-- create_attachment delegates to create_document with type attach. -/
def create_attachment (parent : Nat) (title author doi : String)
    (tags : List (Option String)) (s : State) : Nat × State :=
  create_document title author doi tags "attach" (some parent) s

/-- A field assignment applied by update_document via setattr. -/
inductive DocUpdate where
  | set_title (v : String)
  | set_author (v : String)
  | set_doi (v : String)
  | set_type (v : String)
  | set_parent (v : Option Nat)
deriving DecidableEq

def applyUpdate (d : Doc) : DocUpdate → Doc
  | .set_title v => { d with title := v }
  | .set_author v => { d with author := v }
  | .set_doi v => { d with doi := v }
  | .set_type v => { d with type := v }
  | .set_parent v => { d with parent := v }

def replaceFirstBy : List Doc → (Doc → Bool) → (Doc → Doc) → List Doc
  | [], _, _ => []
  | d :: ds, p, f => if p d then f d :: ds else d :: replaceFirstBy ds p f

/-- update_document: apply the attribute assignments to the first row with
    the given id and return the id; on a missing id do nothing and return
    none. -/
def update_document (doc_id : Nat) (attrs : List DocUpdate) (s : State) :
    Option Nat × State :=
  match s.documents.find? (fun d => d.id == doc_id) with
  | none => (none, s)
  | some _ =>
      (some doc_id,
       { s with documents :=
           (replaceFirstBy s.documents (fun d => d.id == doc_id)
             (fun d => attrs.foldl applyUpdate d)) })

/-- The exceptions delete_document can raise: deleting the absent root row
    (session delete of None) and unlinking a blob missing from the store. -/
inductive DelErr where
  | noRow
  | unlinkMissing
deriving DecidableEq

/-- The breadth-first traversal of delete_document, fuelled structurally.
    One step pops the frontier head, removes every row whose parent equals
    it (queueing their ids) and records the popped id in the visited set.
    The fuel (frontier length plus table size) never runs out, since each
    step decreases that measure by exactly one. -/
def bfsDeleteF : Nat → List Nat → List Doc → List Nat → List Nat × List Doc
  | _, [], documents, docs => (docs, documents)
  | 0, _ :: _, documents, docs => (docs, documents)
  | n + 1, current :: tmp, documents, docs =>
      bfsDeleteF n
        (tmp ++ (documents.filter (fun d => d.parent == some current)).map (·.id))
        (documents.filter (fun d => !(d.parent == some current)))
        (if current ∈ docs then docs else docs ++ [current])

def bfsDelete (tmp : List Nat) (documents : List Doc) (docs : List Nat) :
    List Nat × List Doc :=
  bfsDeleteF (tmp.length + documents.length) tmp documents docs

/-- The inner metadata loop of delete_document for one visited document:
    for each fetched row, a filename row first unlinks its blob (raising if
    the blob is missing, which aborts everything after it), then the row is
    deleted. -/
def deleteMetadataRows : List MetadataRow → State → State × Option DelErr
  | [], s => (s, none)
  | md :: rest, s =>
      if md.key = "filename" then
        if md.value ∈ s.blobs then
          deleteMetadataRows rest
            { s with blobs := eraseFirst s.blobs md.value,
                     metadata := eraseFirst s.metadata md }
        else (s, some DelErr.unlinkMissing)
      else
        deleteMetadataRows rest { s with metadata := eraseFirst s.metadata md }

/-- The outer metadata loop of delete_document over the visited ids. -/
def deleteMetadataPass : List Nat → State → State × Option DelErr
  | [], s => (s, none)
  | d :: rest, s =>
      let mds := s.metadata.filter (fun md => md.document == d)
      match deleteMetadataRows mds s with
      | (s1, none) => deleteMetadataPass rest s1
      | (s1, some e) => (s1, some e)

/-- delete_document: refuse id 0; otherwise traverse and delete the subtree
    rows breadth-first, delete the root row (raising noRow if it is absent),
    then delete metadata and unlink blobs for every visited id. -/
def delete_document (doc_id : Nat) (s : State) : State × Option DelErr :=
  if doc_id = 0 then (s, none)
  else
    match (bfsDelete [doc_id] s.documents []).2.find? (fun doc => doc.id == doc_id) with
    | none =>
        ({ s with documents := (bfsDelete [doc_id] s.documents []).2 },
         some DelErr.noRow)
    | some root =>
        deleteMetadataPass (bfsDelete [doc_id] s.documents []).1
          { s with documents := eraseFirst (bfsDelete [doc_id] s.documents []).2 root }

/-- An uploaded file: its client-supplied name and its bytes. -/
structure UploadFile where
  filename : String
  content : String
deriving DecidableEq

/-- What the PDF info-dictionary oracle yields for one field: the field may
    be absent (KeyError), fail to decode (UnicodeDecodeError), or produce a
    string. -/
inductive PdfField where
  | absent
  | undecodable
  | val (s : String)
deriving DecidableEq

/-- A call issued to the search index client during upload. -/
inductive EsCall where
  | updateMeta (id : Nat) (key value : String)
  | updateContent (id : Nat) (content : String)
  | updateFileInfo (id : Nat) (filename : String) (mimetype : Option String)
      (origFilename : String)
deriving DecidableEq

/-- Derive the file extension: lowercase the name and take the part after
    the last dot; with no dot, fall back to the string form of the id. -/
def fileExtOf (filename : String) (doc_id : Nat) : String :=
  if filename.data.contains '.' then
    ⟨((strLower filename).data.reverse.takeWhile (fun c => !(c == '.'))).reverse⟩
  else toString doc_id

/-- Saving the uploaded bytes into the blob directory: a destructive
    overwrite, so the set of names gains the name if absent. -/
def blobAdd (blobs : List String) (name : String) : List String :=
  if name ∈ blobs then blobs else blobs ++ [name]

/-- Model of the metadata-row helper of the upload pipeline: insert the row
    only when both key and value are truthy (non-empty). -/
def add_metadata_row (doc_id : Nat) (key value : String) (s : State) : State :=
  if key ≠ "" ∧ value ≠ "" then
    { s with metadata := s.metadata ++ [⟨doc_id, key, value⟩] }
  else s

/-- The fixed PDF info fields the upload pipeline extracts. -/
def pdfFields : List String := ["Producer", "Creator", "Title", "Keywords", "Subject"]

/-- The PDF extraction loop: for each field, an absent or undecodable value
    is skipped; otherwise the row is added (when truthy) and an index patch
    carrying the value is issued. -/
def pdfExtract (pdfInfo : String → PdfField) (doc_id : Nat) :
    List String → State → List EsCall → State × List EsCall
  | [], s, log => (s, log)
  | key :: rest, s, log =>
      match pdfInfo key with
      | .absent => pdfExtract pdfInfo doc_id rest s log
      | .undecodable => pdfExtract pdfInfo doc_id rest s log
      | .val v =>
          let keyname := "pdf." ++ strLower key
          pdfExtract pdfInfo doc_id rest (add_metadata_row doc_id keyname v s)
            (log ++ [EsCall.updateMeta doc_id keyname v])

/-- The plain-text extensions whose content is pushed to the index. -/
def textExts : List String := ["txt", "tex", "rst", "enl", "bib"]

/-- upload_doc: derive extension and MIME type, save the blob under
    id.extension, write the filename row and (when the MIME lookup hits) the
    mimetype row, run the PDF or plain-text extraction branch, and finally
    patch the index entry when one exists.  typesMap is the static
    extension-to-MIME table, pdfInfo the PDF oracle for the saved file, and
    esIds the ids present in the index. -/
def upload_doc (typesMap : String → Option String) (pdfInfo : String → PdfField)
    (esIds : List Nat) (filepath : UploadFile) (doc_id : Nat) (s : State) :
    State × List EsCall × String :=
  let fileext := fileExtOf filepath.filename doc_id
  let mimetype := typesMap ("." ++ fileext)
  let new_filename := toString doc_id ++ "." ++ fileext
  let s2 : State :=
    { s with blobs := blobAdd s.blobs new_filename,
             metadata := s.metadata ++ [⟨doc_id, "filename", new_filename⟩] }
  let s3 : State :=
    match mimetype with
    | some mt => { s2 with metadata := s2.metadata ++ [⟨doc_id, "mimetype", mt⟩] }
    | none => s2
  let pr :=
    if mimetype == some "application/pdf" then
      pdfExtract pdfInfo doc_id pdfFields s3 []
    else (s3, [])
  let log2 :=
    if fileext ∈ textExts then
      pr.2 ++ [EsCall.updateContent doc_id (pySubNonWord filepath.content)]
    else pr.2
  let log3 :=
    if doc_id ∈ esIds then
      log2 ++ [EsCall.updateFileInfo doc_id new_filename mimetype filepath.filename]
    else log2
  (pr.1, log3, new_filename)

/-- x is the root itself or a document whose parent chain inside the given
    table reaches the root: the transitive-descendant relation of the spec. -/
inductive Desc (L : List Doc) (root : Nat) : Nat → Prop where
  | refl : Desc L root root
  | step {p c : Nat} (hp : Desc L root p) (doc : Doc) (hmem : doc ∈ L)
      (hid : doc.id = c) (hpar : doc.parent = some p) : Desc L root c

/-- The value of the last row with the given key among the given rows: a
    later row takes priority over an earlier one. -/
def lastValue (rows : List MetadataRow) (k : String) : Option String :=
  match rows with
  | [] => none
  | r :: rest =>
      (lastValue rest k).or (if r.key == k then some r.value else none)

/-- The tag Metadata rows create_document inserts for a tag list. -/
def storedTagRows (nid : Nat) (tags : List (Option String)) : List MetadataRow :=
  tags.filterMap
    (fun t => if truthyTag t then some ⟨nid, "tag", pyStrip (t.getD "")⟩ else none)

/-- The stripped values of the truthy entries of a tag list. -/
def storedTagValues (tags : List (Option String)) : List String :=
  tags.filterMap
    (fun t => if truthyTag t then some (pyStrip (t.getD "")) else none)

/-- Number of rows with the given key for the given document in a row list. -/
def countKeyRows (key : String) (doc_id : Nat) (m : List MetadataRow) : Nat :=
  (m.filter (fun md => md.document == doc_id && md.key == key)).length

/-- Number of metadata rows with the given key for the given document. -/
def countRows (key : String) (doc_id : Nat) (s : State) : Nat :=
  countKeyRows key doc_id s.metadata

/-- Modelled from the words of the spec (plain-text branch): replace every
    maximal run of consecutive non-word characters by a single space.  Used
    only to compare the spec sentence with what the code computes. -/
def collapseGo : Bool → List Char → List Char
  | _, [] => []
  | prevNW, c :: rest =>
      if isWordChar c then c :: collapseGo false rest
      else if prevNW then collapseGo true rest
      else ' ' :: collapseGo true rest

/-- Modelled from the words of the spec: the run-collapsing transform the
    spec sentence describes. -/
def specCollapseNonWordRuns (s : String) : String := ⟨collapseGo false s.data⟩

/-- A MIME table with no entries, for concrete instances. -/
def tmNone : String → Option String := fun _ => none

/-- A PDF oracle with every field absent, for concrete instances. -/
def pdfAbsent : String → PdfField := fun _ => PdfField.absent

/-- A MIME table knowing only the pdf extension, for concrete instances. -/
def tmPdf : String → Option String :=
  fun e => if e == ".pdf" then some "application/pdf" else none

/-- A PDF oracle whose Title field decodes to the empty string and whose
    other fields are absent, for concrete instances. -/
def pdfEmptyTitle : String → PdfField :=
  fun k => if k == "Title" then PdfField.val "" else PdfField.absent

/-- Concrete state for the unlink-failure counterexample: one document whose
    filename row names a blob missing from the store, plus one further
    metadata row. -/
def cexS : State :=
  ⟨[⟨1, "doc", "", "", "", none, none⟩],
   [⟨1, "filename", "gone.pdf"⟩, ⟨1, "note", "x"⟩], []⟩

/-- Concrete state with two metadata rows sharing one key. -/
def s2ex : State :=
  ⟨[⟨1, "doc", "T", "A", "D", none, none⟩],
   [⟨1, "k", "v1"⟩, ⟨1, "k", "v2"⟩], []⟩

/-- The record retrieve_document returns on s2ex. -/
def dd2ex : DocData :=
  ⟨1, "doc", "T", "A", "D", none, none, none, [], [("k", "v2")], none⟩

/-- Concrete well-formed two-document subtree with blobs, for the cascading
    delete witness. -/
def c1S : State :=
  ⟨[⟨1, "doc", "", "", "", none, none⟩, ⟨2, "attach", "", "", "", none, some 1⟩],
   [⟨1, "filename", "1.pdf"⟩, ⟨2, "filename", "2.txt"⟩, ⟨2, "tag", "x"⟩],
   ["1.pdf", "2.txt"]⟩

/-- Concrete state holding only document 1, for the not-found witness. -/
def c4S : State := ⟨[⟨1, "doc", "", "", "", none, none⟩], [], []⟩

/-- Concrete state with a filename row for id 7 and a stale blob sharing the
    prefix, for the resolver witness. -/
def c6S : State := ⟨[], [⟨7, "filename", "7.pdf"⟩], ["7.zzz"]⟩

/-! ## General lemmas about the list helpers -/

theorem eraseFirst_sublist {α : Type} [DecidableEq α] (l : List α) (a : α) :
    List.Sublist (eraseFirst l a) l := by
  induction l with
  | nil => simp [eraseFirst]
  | cons x xs ih =>
    simp only [eraseFirst]
    split
    · exact List.sublist_cons_self x xs
    · exact List.Sublist.cons₂ x ih

theorem mem_of_mem_eraseFirst {α : Type} [DecidableEq α] {l : List α} {a b : α}
    (h : b ∈ eraseFirst l a) : b ∈ l :=
  (eraseFirst_sublist l a).subset h

theorem mem_eraseFirst_of_ne {α : Type} [DecidableEq α] {a b : α}
    (hne : b ≠ a) (l : List α) : b ∈ eraseFirst l a ↔ b ∈ l := by
  induction l with
  | nil => simp [eraseFirst]
  | cons x xs ih =>
    simp only [eraseFirst]
    split
    · rename_i hx
      subst hx
      simp only [List.mem_cons]
      constructor
      · exact Or.inr
      · rintro (rfl | h)
        · exact absurd rfl hne
        · exact h
    · simp [List.mem_cons, ih]

theorem not_mem_eraseFirst_self {α : Type} [DecidableEq α] {l : List α}
    (h : l.Nodup) (a : α) : a ∉ eraseFirst l a := by
  induction l with
  | nil => simp [eraseFirst]
  | cons x xs ih =>
    rw [List.nodup_cons] at h
    simp only [eraseFirst]
    split
    · rename_i hx; subst hx; exact h.1
    · rename_i hx
      intro hmem
      rcases List.mem_cons.mp hmem with rfl | hmem2
      · exact hx rfl
      · exact ih h.2 hmem2

theorem nodup_eraseFirst {α : Type} [DecidableEq α] {l : List α}
    (h : l.Nodup) (a : α) : (eraseFirst l a).Nodup :=
  h.sublist (eraseFirst_sublist l a)

theorem mem_of_mem_foldlErase {α : Type} [DecidableEq α] (vals : List α) :
    ∀ (l : List α) (b : α), b ∈ vals.foldl eraseFirst l → b ∈ l := by
  induction vals with
  | nil => intro l b h; exact h
  | cons v vs ih =>
    intro l b h
    exact mem_of_mem_eraseFirst (ih (eraseFirst l v) b h)

theorem mem_foldlErase_of_not_mem {α : Type} [DecidableEq α] (vals : List α) :
    ∀ (l : List α) (b : α), b ∈ l → b ∉ vals → b ∈ vals.foldl eraseFirst l := by
  induction vals with
  | nil => intro l b h _; exact h
  | cons v vs ih =>
    intro l b hb hnv
    have hne : b ≠ v := fun e => hnv (e ▸ List.mem_cons_self v vs)
    exact ih (eraseFirst l v) b ((mem_eraseFirst_of_ne hne l).mpr hb)
      (fun h => hnv (List.mem_cons_of_mem v h))

theorem nodup_foldlErase {α : Type} [DecidableEq α] (vals : List α) :
    ∀ (l : List α), l.Nodup → (vals.foldl eraseFirst l).Nodup := by
  induction vals with
  | nil => intro l h; exact h
  | cons v vs ih => intro l h; exact ih (eraseFirst l v) (nodup_eraseFirst h v)

theorem not_mem_foldlErase_self {α : Type} [DecidableEq α] (vals : List α) :
    ∀ (l : List α) (v : α), l.Nodup → v ∈ vals → v ∉ vals.foldl eraseFirst l := by
  induction vals with
  | nil => intro l v _ hv; exact absurd hv (List.not_mem_nil v)
  | cons v0 vs ih =>
    intro l v hnd hv
    rcases List.mem_cons.mp hv with rfl | hv2
    · intro hmem
      exact not_mem_eraseFirst_self hnd v (mem_of_mem_foldlErase vs _ v hmem)
    · exact ih (eraseFirst l v0) v (nodup_eraseFirst hnd v0) hv2

theorem foldlErase_cons_skip {α : Type} [DecidableEq α] (ms : List α) :
    ∀ (l : List α) (a : α), (∀ m ∈ ms, m ≠ a) →
      ms.foldl eraseFirst (a :: l) = a :: ms.foldl eraseFirst l := by
  induction ms with
  | nil => intro l a _; rfl
  | cons m ms ih =>
    intro l a h
    have hma : m ≠ a := h m (List.mem_cons_self m ms)
    have h1 : eraseFirst (a :: l) m = a :: eraseFirst l m := by
      simp only [eraseFirst]
      rw [if_neg (fun e => hma e.symm)]
    simp only [List.foldl_cons, h1]
    exact ih (eraseFirst l m) a (fun x hx => h x (List.mem_cons_of_mem m hx))

theorem foldlErase_filter {α : Type} [DecidableEq α] (p : α → Bool) (l : List α) :
    (l.filter p).foldl eraseFirst l = l.filter (fun a => !(p a)) := by
  induction l with
  | nil => simp
  | cons a l ih =>
    by_cases hpa : p a = true
    · rw [List.filter_cons_of_pos hpa]
      have h1 : eraseFirst (a :: l) a = l := by simp [eraseFirst]
      simp only [List.foldl_cons, h1, ih]
      rw [List.filter_cons_of_neg (by simp [hpa])]
    · have hpa2 : p a = false := Bool.eq_false_iff.mpr hpa
      rw [List.filter_cons_of_neg (by simp [hpa2])]
      rw [foldlErase_cons_skip _ _ _
        (fun m hm => fun e => by
          have := List.of_mem_filter hm
          rw [e, hpa2] at this
          exact Bool.false_ne_true this)]
      rw [ih, List.filter_cons_of_pos (by simp [hpa2])]

theorem find?_append_none {α : Type} {p : α → Bool} (l1 l2 : List α)
    (h : l1.find? p = none) : (l1 ++ l2).find? p = l2.find? p := by
  induction l1 with
  | nil => rfl
  | cons a l ih =>
    by_cases hpa : p a = true
    · rw [List.find?_cons_of_pos _ hpa] at h
      exact absurd h (by simp)
    · have hpa2 : p a = false := Bool.eq_false_iff.mpr hpa
      rw [List.find?_cons_of_neg _ (by simp [hpa2])] at h
      rw [List.cons_append, List.find?_cons_of_neg _ (by simp [hpa2])]
      exact ih h

/-! ## The metadata pass of delete_document -/

theorem deleteMetadataRows_spec :
    ∀ (mds : List MetadataRow) (s : State),
      (∀ md ∈ mds, md.key = "filename" → md.value ∈ s.blobs) →
      ((mds.filter (fun md => md.key == "filename")).map (·.value)).Nodup →
      deleteMetadataRows mds s =
        (⟨s.documents, mds.foldl eraseFirst s.metadata,
          ((mds.filter (fun md => md.key == "filename")).map
              (·.value)).foldl eraseFirst s.blobs⟩, none) := by
  intro mds
  induction mds with
  | nil => intro s _ _; rfl
  | cons md rest ih =>
    intro s hmem hnd
    by_cases hk : md.key = "filename"
    · have hkbeq : (md.key == "filename") = true := by simp [hk]
      have hbl : md.value ∈ s.blobs := hmem md (List.mem_cons_self _ _) hk
      have hvals :
          ((md :: rest).filter (fun md => md.key == "filename")).map (·.value)
            = md.value :: ((rest.filter (fun md => md.key == "filename")).map (·.value)) := by
        simp [List.filter_cons, hkbeq]
      rw [hvals] at hnd
      have hnotin := (List.nodup_cons.mp hnd).1
      have hndrest := (List.nodup_cons.mp hnd).2
      have hmem2 : ∀ md2 ∈ rest, md2.key = "filename" →
          md2.value ∈ eraseFirst s.blobs md.value := by
        intro md2 hmd2 hk2
        have hv2 : md2.value ∈ (rest.filter (fun md => md.key == "filename")).map (·.value) :=
          List.mem_map.mpr ⟨md2, List.mem_filter.mpr ⟨hmd2, by simp [hk2]⟩, rfl⟩
        have hne : md2.value ≠ md.value := fun e => hnotin (e ▸ hv2)
        exact (mem_eraseFirst_of_ne hne s.blobs).mpr (hmem md2 (List.mem_cons_of_mem _ hmd2) hk2)
      simp only [deleteMetadataRows]
      rw [if_pos hk, if_pos hbl]
      rw [ih ⟨s.documents, eraseFirst s.metadata md, eraseFirst s.blobs md.value⟩
        hmem2 hndrest]
      rw [hvals]
      rfl
    · have hkbeq : (md.key == "filename") = false := by simp [hk]
      have hvals :
          ((md :: rest).filter (fun md => md.key == "filename"))
            = rest.filter (fun md => md.key == "filename") := by
        simp [List.filter_cons, hkbeq]
      have hmem2 : ∀ md2 ∈ rest, md2.key = "filename" → md2.value ∈ s.blobs :=
        fun md2 hmd2 hk2 => hmem md2 (List.mem_cons_of_mem _ hmd2) hk2
      simp only [deleteMetadataRows]
      rw [if_neg hk]
      rw [ih ⟨s.documents, eraseFirst s.metadata md, s.blobs⟩ hmem2
        (by rw [hvals] at hnd; exact hnd)]
      rw [hvals]
      rfl

theorem deleteMetadataPass_spec :
    ∀ (docIds : List Nat) (s : State),
      (∀ md ∈ s.metadata, md.key = "filename" → md.value ∈ s.blobs) →
      ((s.metadata.filter (fun md => md.key == "filename")).map (·.value)).Nodup →
      s.blobs.Nodup →
      (deleteMetadataPass docIds s).2 = none ∧
      (deleteMetadataPass docIds s).1.documents = s.documents ∧
      (deleteMetadataPass docIds s).1.metadata
        = s.metadata.filter (fun md => decide (md.document ∉ docIds)) ∧
      (∀ b ∈ (deleteMetadataPass docIds s).1.blobs, b ∈ s.blobs) ∧
      (∀ md ∈ s.metadata, md.key = "filename" → md.document ∈ docIds →
         md.value ∉ (deleteMetadataPass docIds s).1.blobs) := by
  intro docIds
  induction docIds with
  | nil =>
    intro s h1 h2 h3
    refine ⟨rfl, rfl, ?_, fun b hb => hb, fun md _ _ hmem => absurd hmem (List.not_mem_nil _)⟩
    exact (List.filter_eq_self.mpr (fun a _ => by simp)).symm
  | cons d rest ih =>
    intro s h1 h2 h3
    have hmem : ∀ md ∈ s.metadata.filter (fun md => md.document == d),
        md.key = "filename" → md.value ∈ s.blobs :=
      fun md hmd => h1 md (List.mem_filter.mp hmd).1
    have hndmds :
        (((s.metadata.filter (fun md => md.document == d)).filter
            (fun md => md.key == "filename")).map (·.value)).Nodup :=
      h2.sublist (((List.filter_sublist s.metadata).filter _).map _)
    have hd := deleteMetadataRows_spec (s.metadata.filter (fun md => md.document == d)) s
      hmem hndmds
    have hmeta1 : (s.metadata.filter (fun md => md.document == d)).foldl
        eraseFirst s.metadata = s.metadata.filter (fun md => !(md.document == d)) :=
      foldlErase_filter _ s.metadata
    rw [hmeta1] at hd
    have hrun : deleteMetadataPass (d :: rest) s =
        deleteMetadataPass rest
          ⟨s.documents, s.metadata.filter (fun md => !(md.document == d)),
           (((s.metadata.filter (fun md => md.document == d)).filter
               (fun md => md.key == "filename")).map (·.value)).foldl
             eraseFirst s.blobs⟩ := by
      simp only [deleteMetadataPass]
      rw [hd]
    have h1' : ∀ md ∈ s.metadata.filter (fun md => !(md.document == d)),
        md.key = "filename" →
        md.value ∈ (((s.metadata.filter (fun md => md.document == d)).filter
            (fun md => md.key == "filename")).map (·.value)).foldl eraseFirst s.blobs := by
      intro md hmd hk
      have hmd1 : md ∈ s.metadata := (List.mem_filter.mp hmd).1
      have hmdd : (md.document == d) = false := by
        have := (List.mem_filter.mp hmd).2
        simpa using this
      have hnin : md.value ∉ ((s.metadata.filter (fun md => md.document == d)).filter
          (fun md => md.key == "filename")).map (·.value) := by
        intro hv
        obtain ⟨r, hr, hrv⟩ := List.mem_map.mp hv
        have hr1 : r ∈ s.metadata.filter (fun md => md.document == d) :=
          (List.mem_filter.mp hr).1
        have hr2 : (r.key == "filename") = true := (List.mem_filter.mp hr).2
        have hrd : (r.document == d) = true := (List.mem_filter.mp hr1).2
        have hmdmem : md ∈ s.metadata.filter (fun md => md.key == "filename") :=
          List.mem_filter.mpr ⟨hmd1, by simp [hk]⟩
        have hrmem : r ∈ s.metadata.filter (fun md => md.key == "filename") :=
          List.mem_filter.mpr ⟨(List.mem_filter.mp hr1).1, hr2⟩
        have hreq : r = md := List.inj_on_of_nodup_map h2 hrmem hmdmem (by simpa using hrv)
        rw [hreq] at hrd
        simp [hrd] at hmdd
      exact mem_foldlErase_of_not_mem _ s.blobs md.value (h1 md hmd1 hk) hnin
    have h2' : (((s.metadata.filter (fun md => !(md.document == d))).filter
        (fun md => md.key == "filename")).map (·.value)).Nodup :=
      h2.sublist (((List.filter_sublist s.metadata).filter _).map _)
    have h3' : ((((s.metadata.filter (fun md => md.document == d)).filter
        (fun md => md.key == "filename")).map (·.value)).foldl eraseFirst s.blobs).Nodup :=
      nodup_foldlErase _ s.blobs h3
    obtain ⟨g1, g2, g3, g4, g5⟩ :=
      ih ⟨s.documents, s.metadata.filter (fun md => !(md.document == d)),
          (((s.metadata.filter (fun md => md.document == d)).filter
              (fun md => md.key == "filename")).map (·.value)).foldl
            eraseFirst s.blobs⟩ h1' h2' h3'
    refine ⟨by rw [hrun]; exact g1, by rw [hrun]; exact g2, ?_, ?_, ?_⟩
    · rw [hrun, g3]
      rw [List.filter_filter]
      apply List.filter_congr
      intro md _
      by_cases hdd : md.document = d <;> by_cases hrr : md.document ∈ rest <;>
        simp [hdd, hrr]
    · intro b hb
      rw [hrun] at hb
      exact mem_of_mem_foldlErase _ s.blobs b (g4 b hb)
    · intro md hmd hk hdoc
      by_cases hdd : md.document = d
      · have hv : md.value ∈ ((s.metadata.filter (fun md => md.document == d)).filter
            (fun md => md.key == "filename")).map (·.value) :=
          List.mem_map.mpr ⟨md, List.mem_filter.mpr
            ⟨List.mem_filter.mpr ⟨hmd, by simp [hdd]⟩, by simp [hk]⟩, rfl⟩
        have hni := not_mem_foldlErase_self _ s.blobs md.value h3 hv
        intro hmem2
        rw [hrun] at hmem2
        exact hni (g4 md.value hmem2)
      · have hrest : md.document ∈ rest := by
          rcases List.mem_cons.mp hdoc with h | h
          · exact absurd h hdd
          · exact h
        have hmd' : md ∈ s.metadata.filter (fun md => !(md.document == d)) :=
          List.mem_filter.mpr ⟨hmd, by simp [hdd]⟩
        intro hmem2
        rw [hrun] at hmem2
        exact g5 md hmd' hk hrest hmem2

/-! ## The breadth-first traversal of delete_document -/

theorem bfsDeleteF_sublist :
    ∀ (n : Nat) (tmp : List Nat) (documents : List Doc) (docs : List Nat),
      List.Sublist (bfsDeleteF n tmp documents docs).2 documents := by
  intro n
  induction n with
  | zero =>
    intro tmp documents docs
    cases tmp with
    | nil => exact List.Sublist.refl _
    | cons a t => exact List.Sublist.refl _
  | succ n ih =>
    intro tmp documents docs
    cases tmp with
    | nil => exact List.Sublist.refl _
    | cons current rest =>
      exact (ih _ _ _).trans (List.filter_sublist documents)

theorem length_filter_pair (p : Doc → Bool) (l : List Doc) :
    (l.filter p).length + (l.filter (fun d => !(p d))).length = l.length := by
  induction l with
  | nil => rfl
  | cons a l ih =>
    by_cases hpa : p a = true
    · rw [List.filter_cons_of_pos hpa, List.filter_cons_of_neg (by simp [hpa])]
      simp only [List.length_cons]
      omega
    · have hpa2 : p a = false := Bool.eq_false_iff.mpr hpa
      rw [List.filter_cons_of_neg (by simp [hpa2]), List.filter_cons_of_pos (by simp [hpa2])]
      simp only [List.length_cons]
      omega

theorem bfs_invariant (L : List Doc) (root : Nat)
    (hids : (L.map Doc.id).Nodup)
    (hnocyc : ∀ doc ∈ L, doc.id = root → ∀ p, doc.parent = some p → ¬ Desc L root p) :
    ∀ (n : Nat) (tmp : List Nat) (documents : List Doc) (docs : List Nat),
      tmp.length + documents.length ≤ n →
      List.Sublist documents L →
      (∀ doc ∈ L, doc ∉ documents → doc.id ∈ tmp ∨ doc.id ∈ docs) →
      (∀ c ∈ docs, ∀ doc ∈ documents, doc.parent ≠ some c) →
      (∀ x, x ∈ tmp ∨ x ∈ docs → Desc L root x) →
      (∀ x, x ∈ tmp ∨ x ∈ docs → x = root ∨ ∀ doc ∈ documents, doc.id ≠ x) →
      (∀ doc ∈ L, doc.id = root → doc ∈ documents) →
      (List.Sublist (bfsDeleteF n tmp documents docs).2 L ∧
       (∀ doc ∈ L, doc ∉ (bfsDeleteF n tmp documents docs).2 →
          doc.id ∈ (bfsDeleteF n tmp documents docs).1) ∧
       (∀ c ∈ (bfsDeleteF n tmp documents docs).1,
          ∀ doc ∈ (bfsDeleteF n tmp documents docs).2, doc.parent ≠ some c) ∧
       (∀ x ∈ (bfsDeleteF n tmp documents docs).1, Desc L root x) ∧
       (∀ x ∈ (bfsDeleteF n tmp documents docs).1,
          x = root ∨ ∀ doc ∈ (bfsDeleteF n tmp documents docs).2, doc.id ≠ x) ∧
       (∀ doc ∈ L, doc.id = root → doc ∈ (bfsDeleteF n tmp documents docs).2) ∧
       (∀ x ∈ tmp, x ∈ (bfsDeleteF n tmp documents docs).1) ∧
       (∀ x ∈ docs, x ∈ (bfsDeleteF n tmp documents docs).1)) := by
  intro n
  induction n with
  | zero =>
    intro tmp documents docs hn hsub hB hC hD hF hG
    have htmp : tmp = [] := by
      cases tmp with
      | nil => rfl
      | cons a t => simp [List.length_cons] at hn
    subst htmp
    refine ⟨hsub, ?_, hC, fun x hx => hD x (Or.inr hx), fun x hx => hF x (Or.inr hx),
      hG, fun x hx => absurd hx (List.not_mem_nil x), fun x hx => hx⟩
    intro doc hdoc hnd
    rcases hB doc hdoc hnd with h | h
    · exact absurd h (List.not_mem_nil _)
    · exact h
  | succ n ih =>
    intro tmp documents docs hn hsub hB hC hD hF hG
    cases tmp with
    | nil =>
      refine ⟨hsub, ?_, hC, fun x hx => hD x (Or.inr hx), fun x hx => hF x (Or.inr hx),
        hG, fun x hx => absurd hx (List.not_mem_nil x), fun x hx => hx⟩
      intro doc hdoc hnd
      rcases hB doc hdoc hnd with h | h
      · exact absurd h (List.not_mem_nil _)
      · exact h
    | cons current rest =>
      have hcd : current ∈ (if current ∈ docs then docs else docs ++ [current]) := by
        by_cases h : current ∈ docs <;> simp [h]
      have hdocssub : ∀ x ∈ docs, x ∈ (if current ∈ docs then docs else docs ++ [current]) := by
        intro x hx
        by_cases h : current ∈ docs <;> simp [h, hx]
      have hdocs'cases : ∀ x, x ∈ (if current ∈ docs then docs else docs ++ [current]) →
          x ∈ docs ∨ x = current := by
        intro x hx
        by_cases h : current ∈ docs
        · rw [if_pos h] at hx; exact Or.inl hx
        · rw [if_neg h] at hx
          rcases List.mem_append.mp hx with h2 | h2
          · exact Or.inl h2
          · exact Or.inr (List.mem_singleton.mp h2)
      have hDcur : Desc L root current := hD current (Or.inl (List.mem_cons_self _ _))
      have hndocs : (documents.map Doc.id).Nodup := hids.sublist (hsub.map Doc.id)
      -- measure for the recursive call
      have hmeas : (rest ++ (documents.filter (fun d => d.parent == some current)).map
            (·.id)).length
          + (documents.filter (fun d => !(d.parent == some current))).length ≤ n := by
        have hsplit := length_filter_pair (fun d => d.parent == some current) documents
        simp only [List.length_append, List.length_map, List.length_cons] at hn ⊢
        omega
      have hsub' : List.Sublist (documents.filter (fun d => !(d.parent == some current))) L :=
        (List.filter_sublist documents).trans hsub
      have hB' : ∀ doc ∈ L, doc ∉ documents.filter (fun d => !(d.parent == some current)) →
          doc.id ∈ rest ++ (documents.filter (fun d => d.parent == some current)).map (·.id)
          ∨ doc.id ∈ (if current ∈ docs then docs else docs ++ [current]) := by
        intro doc hdocL hnotin
        by_cases hmem : doc ∈ documents
        · have hpar : (doc.parent == some current) = true := by
            by_contra hc
            have hc2 : (doc.parent == some current) = false := Bool.eq_false_iff.mpr hc
            exact hnotin (List.mem_filter.mpr ⟨hmem, by simp [hc2]⟩)
          exact Or.inl (List.mem_append_right _
            (List.mem_map.mpr ⟨doc, List.mem_filter.mpr ⟨hmem, hpar⟩, rfl⟩))
        · rcases hB doc hdocL hmem with h | h
          · rcases List.mem_cons.mp h with heq | h2
            · exact Or.inr (heq ▸ hcd)
            · exact Or.inl (List.mem_append_left _ h2)
          · exact Or.inr (hdocssub _ h)
      have hC' : ∀ c ∈ (if current ∈ docs then docs else docs ++ [current]),
          ∀ doc ∈ documents.filter (fun d => !(d.parent == some current)),
            doc.parent ≠ some c := by
        intro c hc doc hdoc
        have hdoc2 := List.mem_filter.mp hdoc
        rcases hdocs'cases c hc with h | h
        · exact hC c h doc hdoc2.1
        · subst h
          intro hp
          have : (doc.parent == some c) = true := by simp [hp]
          rw [this] at hdoc2
          simpa using hdoc2.2
      have hD' : ∀ x, x ∈ rest ++ (documents.filter
            (fun d => d.parent == some current)).map (·.id)
          ∨ x ∈ (if current ∈ docs then docs else docs ++ [current]) → Desc L root x := by
        intro x hx
        rcases hx with hx | hx
        · rcases List.mem_append.mp hx with h | h
          · exact hD x (Or.inl (List.mem_cons_of_mem _ h))
          · obtain ⟨doc, hdoc, hdid⟩ := List.mem_map.mp h
            have hdoc2 := List.mem_filter.mp hdoc
            have hpar : doc.parent = some current := by
              have := hdoc2.2
              exact eq_of_beq this
            exact Desc.step hDcur doc (hsub.subset hdoc2.1) hdid hpar
        · rcases hdocs'cases x hx with h | h
          · exact hD x (Or.inr h)
          · exact h ▸ hDcur
      have hF' : ∀ x, x ∈ rest ++ (documents.filter
            (fun d => d.parent == some current)).map (·.id)
          ∨ x ∈ (if current ∈ docs then docs else docs ++ [current]) →
          x = root ∨ ∀ doc ∈ documents.filter (fun d => !(d.parent == some current)),
            doc.id ≠ x := by
        intro x hx
        have hold : (x ∈ current :: rest ∨ x ∈ docs) →
            x = root ∨ ∀ doc ∈ documents.filter (fun d => !(d.parent == some current)),
              doc.id ≠ x := by
          intro h
          rcases hF x h with h2 | h2
          · exact Or.inl h2
          · exact Or.inr (fun doc hdoc => h2 doc (List.mem_filter.mp hdoc).1)
        rcases hx with hx | hx
        · rcases List.mem_append.mp hx with h | h
          · exact hold (Or.inl (List.mem_cons_of_mem _ h))
          · obtain ⟨r, hr, hrid⟩ := List.mem_map.mp h
            have hr2 := List.mem_filter.mp hr
            right
            intro doc hdoc heq
            have hdoc2 := List.mem_filter.mp hdoc
            have hreq : doc = r :=
              List.inj_on_of_nodup_map hndocs hdoc2.1 hr2.1 (by rw [heq, hrid])
            rw [hreq] at hdoc2
            rw [hr2.2] at hdoc2
            simpa using hdoc2.2
        · rcases hdocs'cases x hx with h | h
          · exact hold (Or.inr h)
          · exact hold (Or.inl (h ▸ List.mem_cons_self _ _))
      have hG' : ∀ doc ∈ L, doc.id = root →
          doc ∈ documents.filter (fun d => !(d.parent == some current)) := by
        intro doc hdoc hid
        refine List.mem_filter.mpr ⟨hG doc hdoc hid, ?_⟩
        by_contra hc
        have hpar : doc.parent = some current := by
          have : (doc.parent == some current) = true := by
            rcases h : (doc.parent == some current) with _ | _
            · rw [h] at hc; simp at hc
            · rfl
          exact eq_of_beq this
        exact hnocyc doc hdoc hid current hpar hDcur
      obtain ⟨g1, g2, g3, g4, g5, g6, g7, g8⟩ :=
        ih (rest ++ (documents.filter (fun d => d.parent == some current)).map (·.id))
          (documents.filter (fun d => !(d.parent == some current)))
          (if current ∈ docs then docs else docs ++ [current])
          hmeas hsub' hB' hC' hD' hF' hG'
      refine ⟨g1, g2, g3, g4, g5, g6, ?_, ?_⟩
      · intro x hx
        rcases List.mem_cons.mp hx with heq | h2
        · exact heq ▸ g8 current hcd
        · exact g7 x (List.mem_append_left _ h2)
      · intro x hx
        exact g8 x (hdocssub x hx)

theorem bfsDelete_props (L : List Doc) (root : Nat)
    (hids : (L.map Doc.id).Nodup)
    (hnocyc : ∀ doc ∈ L, doc.id = root → ∀ p, doc.parent = some p → ¬ Desc L root p) :
    List.Sublist (bfsDelete [root] L []).2 L ∧
    (∀ x, Desc L root x → x ∈ (bfsDelete [root] L []).1) ∧
    (∀ x ∈ (bfsDelete [root] L []).1, Desc L root x) ∧
    (∀ x ∈ (bfsDelete [root] L []).1,
       x = root ∨ ∀ doc ∈ (bfsDelete [root] L []).2, doc.id ≠ x) ∧
    (∀ doc ∈ L, doc.id = root → doc ∈ (bfsDelete [root] L []).2) := by
  obtain ⟨g1, g2, g3, g4, g5, g6, g7, g8⟩ :=
    bfs_invariant L root hids hnocyc ([root].length + L.length) [root] L []
      (le_refl _) (List.Sublist.refl L)
      (fun doc hdoc hnd => absurd hdoc hnd)
      (fun c hc => absurd hc (List.not_mem_nil c))
      (fun x hx => by
        rcases hx with hx | hx
        · rw [List.mem_singleton.mp hx]; exact Desc.refl
        · exact absurd hx (List.not_mem_nil x))
      (fun x hx => by
        rcases hx with hx | hx
        · exact Or.inl (List.mem_singleton.mp hx)
        · exact absurd hx (List.not_mem_nil x))
      (fun doc hdoc _ => hdoc)
  refine ⟨g1, ?_, g4, g5, g6⟩
  intro x hx
  induction hx with
  | refl => exact g7 root (List.mem_singleton_self root)
  | step hp doc hmem hid hpar ihp =>
    by_cases hdoc : doc ∈ (bfsDelete [root] L []).2
    · exact absurd hpar (g3 _ ihp doc hdoc)
    · exact hid ▸ g2 doc hmem hdoc

/-- Claim C1: for every nonzero document id rooting a well-formed subtree
    (unique row ids, an existing root row whose parent is not its own
    descendant, every filename row naming a distinct existing blob, distinct
    directory entries), delete_document raises nothing, removes the Document
    row of the root and of every transitive descendant, removes every
    Metadata row referencing any of them, and unlinks every blob named by a
    filename Metadata row of any of them. -/
theorem delete_document_cascades (s : State) (d : Nat)
    (hd : d ≠ 0)
    (hids : (s.documents.map Doc.id).Nodup)
    (hroot : ∃ doc ∈ s.documents, doc.id = d)
    (hnocyc : ∀ doc ∈ s.documents, doc.id = d → ∀ p, doc.parent = some p →
        ¬ Desc s.documents d p)
    (hblob : ∀ md ∈ s.metadata, md.key = "filename" → md.value ∈ s.blobs)
    (hvals : ((s.metadata.filter (fun md => md.key == "filename")).map (·.value)).Nodup)
    (hbnd : s.blobs.Nodup) :
    (delete_document d s).2 = none ∧
    (∀ doc ∈ (delete_document d s).1.documents, ¬ Desc s.documents d doc.id) ∧
    (∀ md ∈ (delete_document d s).1.metadata, ¬ Desc s.documents d md.document) ∧
    (∀ md ∈ s.metadata, md.key = "filename" → Desc s.documents d md.document →
       md.value ∉ (delete_document d s).1.blobs) := by
  obtain ⟨p1, p2, p3, p4, p5⟩ := bfsDelete_props s.documents d hids hnocyc
  obtain ⟨rootdoc, hrd1, hrd2⟩ := hroot
  obtain ⟨root', hroot'⟩ :
      ∃ root', (bfsDelete [d] s.documents []).2.find?
        (fun doc => doc.id == d) = some root' := by
    cases hf : (bfsDelete [d] s.documents []).2.find? (fun doc => doc.id == d) with
    | none =>
      have := List.find?_eq_none.mp hf rootdoc (p5 rootdoc hrd1 hrd2)
      simp [hrd2] at this
    | some r => exact ⟨r, rfl⟩
  have hr'id : root'.id = d := by simpa using List.find?_some hroot'
  have hr'mem : root' ∈ (bfsDelete [d] s.documents []).2 :=
    List.mem_of_find?_eq_some hroot'
  have hrun : delete_document d s =
      deleteMetadataPass (bfsDelete [d] s.documents []).1
        ⟨eraseFirst (bfsDelete [d] s.documents []).2 root', s.metadata, s.blobs⟩ := by
    unfold delete_document
    rw [if_neg hd, hroot']
  obtain ⟨q1, q2, q3, q4, q5⟩ :=
    deleteMetadataPass_spec (bfsDelete [d] s.documents []).1
      ⟨eraseFirst (bfsDelete [d] s.documents []).2 root', s.metadata, s.blobs⟩
      hblob hvals hbnd
  have hnmap : ((bfsDelete [d] s.documents []).2.map Doc.id).Nodup :=
    hids.sublist (p1.map Doc.id)
  refine ⟨by rw [hrun]; exact q1, ?_, ?_, ?_⟩
  · intro doc hdocmem hdesc
    rw [hrun] at hdocmem
    rw [q2] at hdocmem
    have hdm2 : doc ∈ (bfsDelete [d] s.documents []).2 := mem_of_mem_eraseFirst hdocmem
    have hin1 : doc.id ∈ (bfsDelete [d] s.documents []).1 := p2 doc.id hdesc
    rcases p4 doc.id hin1 with heq | hall
    · have hnd2 : (bfsDelete [d] s.documents []).2.Nodup := List.Nodup.of_map Doc.id hnmap
      have hde : doc = root' :=
        List.inj_on_of_nodup_map hnmap hdm2 hr'mem (by rw [heq, hr'id])
      rw [hde] at hdocmem
      exact not_mem_eraseFirst_self hnd2 root' hdocmem
    · exact hall doc hdm2 rfl
  · intro md hmd hdesc
    rw [hrun] at hmd
    rw [q3] at hmd
    have hni : md.document ∉ (bfsDelete [d] s.documents []).1 :=
      of_decide_eq_true ((List.mem_filter.mp hmd).2)
    exact hni (p2 md.document hdesc)
  · intro md hmd hk hdesc
    intro hmemblob
    rw [hrun] at hmemblob
    exact q5 md hmd hk (p2 md.document hdesc) hmemblob

/-- Witness for C1: cascading delete on a concrete two-document subtree. -/
theorem delete_document_cascades_witness :
    (delete_document 1 c1S).2 = none ∧
    (∀ doc ∈ (delete_document 1 c1S).1.documents, ¬ Desc c1S.documents 1 doc.id) ∧
    (∀ md ∈ (delete_document 1 c1S).1.metadata, ¬ Desc c1S.documents 1 md.document) ∧
    (∀ md ∈ c1S.metadata, md.key = "filename" → Desc c1S.documents 1 md.document →
       md.value ∉ (delete_document 1 c1S).1.blobs) :=
  delete_document_cascades c1S 1 (by decide) (by decide) (by decide)
    (fun doc hdoc hid p hp => by
      rcases List.mem_cons.mp hdoc with h | h
      · subst h; simp at hp
      · rcases List.mem_cons.mp h with h2 | h2
        · subst h2; simp at hid
        · exact absurd h2 (List.not_mem_nil _))
    (by decide) (by decide) (by decide)

/-- Claim C3 counterexample: with one document whose filename row names a
    blob missing from the store, delete_document raises on the unlink and
    the remaining metadata row of the visited document is not deleted, so
    the metadata pass does not continue past the failed unlink. -/
theorem delete_unlink_abort_cex :
    (delete_document 1 cexS).2 = some DelErr.unlinkMissing ∧
    (⟨1, "note", "x"⟩ : MetadataRow) ∈ (delete_document 1 cexS).1.metadata := by
  decide

/-- Claim C3 (amended): when the metadata pass reaches a filename row whose
    blob is missing from the store, the unlink raises immediately: no later
    metadata row of the fetched batch is deleted and no later blob is
    unlinked, the state being returned exactly as it was. -/
theorem delete_unlink_aborts_rest (md : MetadataRow) (rest : List MetadataRow)
    (s : State) (h1 : md.key = "filename") (h2 : md.value ∉ s.blobs) :
    deleteMetadataRows (md :: rest) s = (s, some DelErr.unlinkMissing) := by
  simp only [deleteMetadataRows]
  rw [if_pos h1, if_neg h2]

/-- Witness for the amended C3 on concrete rows. -/
theorem delete_unlink_aborts_rest_witness :
    deleteMetadataRows [⟨1, "filename", "gone.pdf"⟩, ⟨1, "note", "x"⟩] emptyState
      = (emptyState, some DelErr.unlinkMissing) :=
  delete_unlink_aborts_rest ⟨1, "filename", "gone.pdf"⟩ [⟨1, "note", "x"⟩]
    emptyState rfl (by decide)

/-- Claim C4 counterexample: on a missing nonzero id, delete_document
    raises (session delete of an absent row) and retrieve_document raises
    (attribute access on a missing row); neither completes without fault. -/
theorem notfound_fault_cex :
    (delete_document 5 emptyState).2 = some DelErr.noRow ∧
    retrieve_document 5 emptyState = none := by
  decide

/-- Claim C4 (amended): on a non-existent document id, update_document
    returns nothing leaving the state unchanged and get_filename returns
    none when neither a filename row nor a matching blob exists; but
    delete_document on a missing nonzero id raises when deleting the absent
    row, and retrieve_document on a missing id raises on field access. -/
theorem notfound_degrade_amended (s : State) (i : Nat) (attrs : List DocUpdate)
    (hmiss : ∀ d ∈ s.documents, d.id ≠ i) :
    update_document i attrs s = (none, s) ∧
    retrieve_document i s = none ∧
    (i ≠ 0 → (delete_document i s).2 = some DelErr.noRow) ∧
    ((∀ md ∈ s.metadata, ¬(md.key = "filename" ∧ md.document = i)) →
     (∀ b ∈ s.blobs, ¬ strStartsWith b (toString i ++ ".") = true) →
     get_filename i s = none) := by
  have hfind : s.documents.find? (fun d => d.id == i) = none :=
    List.find?_eq_none.mpr (fun d hd => by simp [hmiss d hd])
  refine ⟨?_, ?_, ?_, ?_⟩
  · unfold update_document
    rw [hfind]
  · unfold retrieve_document retrieve_document_noatt
    rw [hfind]
  · intro hi
    unfold delete_document
    rw [if_neg hi]
    have hsubl := bfsDeleteF_sublist ([i].length + s.documents.length) [i] s.documents []
    have hfind2 : (bfsDelete [i] s.documents []).2.find? (fun doc => doc.id == i)
        = none :=
      List.find?_eq_none.mpr (fun d hd => by simp [hmiss d (hsubl.subset hd)])
    rw [hfind2]
  · intro hmd hbl
    have h1 : s.metadata.find? (fun md => md.key == "filename" && md.document == i)
        = none :=
      List.find?_eq_none.mpr (fun md hm => by
        intro hp
        simp only [Bool.and_eq_true, beq_iff_eq] at hp
        exact hmd md hm hp)
    unfold get_filename
    rw [h1]
    exact List.find?_eq_none.mpr (fun b hb => hbl b hb)

/-- Witness for the amended C4 on a concrete state missing id 5. -/
theorem notfound_degrade_amended_witness :
    update_document 5 [] c4S = (none, c4S) ∧
    retrieve_document 5 c4S = none ∧
    (delete_document 5 c4S).2 = some DelErr.noRow ∧
    get_filename 5 c4S = none := by
  obtain ⟨h1, h2, h3, h4⟩ := notfound_degrade_amended c4S 5 [] (by decide)
  exact ⟨h1, h2, h3 (by decide), h4 (by decide) (by decide)⟩

/-- Claim C6: get_filename returns the value of the filename Metadata row
    whenever one exists, whatever the blob directory holds; with no such
    row it returns the first directory entry starting with the id and a
    dot, and none when neither source matches. -/
theorem resolve_precedence_spec (s : State) (X : Nat) :
    ((∃ md ∈ s.metadata, md.key = "filename" ∧ md.document = X) →
       ∃ md ∈ s.metadata, md.key = "filename" ∧ md.document = X ∧
         ∀ bl : List String,
           get_filename X ⟨s.documents, s.metadata, bl⟩ = some md.value) ∧
    ((∀ md ∈ s.metadata, ¬(md.key = "filename" ∧ md.document = X)) →
       get_filename X s
         = s.blobs.find? (fun fn => strStartsWith fn (toString X ++ "."))) ∧
    ((∀ md ∈ s.metadata, ¬(md.key = "filename" ∧ md.document = X)) →
       (∀ b ∈ s.blobs, ¬ strStartsWith b (toString X ++ ".") = true) →
       get_filename X s = none) := by
  refine ⟨?_, ?_, ?_⟩
  · intro hex
    cases hf : s.metadata.find? (fun md => md.key == "filename" && md.document == X) with
    | none =>
      exfalso
      obtain ⟨md, hmd, hk, hdoc⟩ := hex
      have := List.find?_eq_none.mp hf md hmd
      simp [hk, hdoc] at this
    | some md0 =>
      have h1 := List.find?_some hf
      simp only [Bool.and_eq_true, beq_iff_eq] at h1
      refine ⟨md0, List.mem_of_find?_eq_some hf, h1.1, h1.2, ?_⟩
      intro bl
      unfold get_filename
      rw [show (⟨s.documents, s.metadata, bl⟩ : State).metadata = s.metadata from rfl, hf]
  · intro hall
    have hf : s.metadata.find? (fun md => md.key == "filename" && md.document == X)
        = none :=
      List.find?_eq_none.mpr (fun md hm => by
        intro hp
        simp only [Bool.and_eq_true, beq_iff_eq] at hp
        exact hall md hm hp)
    unfold get_filename
    rw [hf]
  · intro hall hbl
    have hf : s.metadata.find? (fun md => md.key == "filename" && md.document == X)
        = none :=
      List.find?_eq_none.mpr (fun md hm => by
        intro hp
        simp only [Bool.and_eq_true, beq_iff_eq] at hp
        exact hall md hm hp)
    unfold get_filename
    rw [hf]
    exact List.find?_eq_none.mpr (fun b hb => hbl b hb)

/-- Witness for C6: the filename row wins over a stale blob entry. -/
theorem resolve_precedence_spec_witness :
    ∃ md ∈ c6S.metadata, md.key = "filename" ∧ md.document = 7 ∧
      ∀ bl : List String,
        get_filename 7 ⟨c6S.documents, c6S.metadata, bl⟩ = some md.value :=
  (resolve_precedence_spec c6S 7).1 ⟨⟨7, "filename", "7.pdf"⟩, by decide, by decide⟩

/-! ## The upload pipeline -/

theorem countKeyRows_append (key : String) (i : Nat) (m1 m2 : List MetadataRow) :
    countKeyRows key i (m1 ++ m2) = countKeyRows key i m1 + countKeyRows key i m2 := by
  unfold countKeyRows
  rw [List.filter_append, List.length_append]

theorem mem_blobAdd_self (bl : List String) (name : String) :
    name ∈ blobAdd bl name := by
  unfold blobAdd
  split
  · assumption
  · exact List.mem_append_right _ (List.mem_singleton_self _)

theorem pdfExtract_metadata_shape (pf : String → PdfField) (i : Nat) :
    ∀ (keys : List String) (s : State) (log : List EsCall),
      ∃ tail : List MetadataRow,
        (pdfExtract pf i keys s log).1.metadata = s.metadata ++ tail ∧
        ∀ md ∈ tail, ∃ k ∈ keys, md.key = "pdf." ++ strLower k ∧ md.document = i := by
  intro keys
  induction keys with
  | nil =>
    intro s log
    exact ⟨[], (List.append_nil _).symm, fun md hmd => absurd hmd (List.not_mem_nil _)⟩
  | cons k rest ih =>
    intro s log
    cases hpf : pf k with
    | absent =>
      have hstep : pdfExtract pf i (k :: rest) s log = pdfExtract pf i rest s log := by
        simp only [pdfExtract, hpf]
      rw [hstep]
      obtain ⟨tail, h1, h2⟩ := ih s log
      exact ⟨tail, h1, fun md hmd =>
        (h2 md hmd).elim (fun k2 hk2 => ⟨k2, List.mem_cons_of_mem _ hk2.1, hk2.2⟩)⟩
    | undecodable =>
      have hstep : pdfExtract pf i (k :: rest) s log = pdfExtract pf i rest s log := by
        simp only [pdfExtract, hpf]
      rw [hstep]
      obtain ⟨tail, h1, h2⟩ := ih s log
      exact ⟨tail, h1, fun md hmd =>
        (h2 md hmd).elim (fun k2 hk2 => ⟨k2, List.mem_cons_of_mem _ hk2.1, hk2.2⟩)⟩
    | val v =>
      have hstep : pdfExtract pf i (k :: rest) s log
          = pdfExtract pf i rest (add_metadata_row i ("pdf." ++ strLower k) v s)
              (log ++ [EsCall.updateMeta i ("pdf." ++ strLower k) v]) := by
        simp only [pdfExtract, hpf]
      rw [hstep]
      by_cases hcond : ("pdf." ++ strLower k) ≠ "" ∧ v ≠ ""
      · have hadd : add_metadata_row i ("pdf." ++ strLower k) v s
            = ⟨s.documents, s.metadata ++ [⟨i, "pdf." ++ strLower k, v⟩], s.blobs⟩ := by
          unfold add_metadata_row
          rw [if_pos hcond]
        rw [hadd]
        obtain ⟨tail, h1, h2⟩ :=
          ih ⟨s.documents, s.metadata ++ [⟨i, "pdf." ++ strLower k, v⟩], s.blobs⟩
            (log ++ [EsCall.updateMeta i ("pdf." ++ strLower k) v])
        refine ⟨⟨i, "pdf." ++ strLower k, v⟩ :: tail, ?_, ?_⟩
        · rw [h1]
          simp
        · intro md hmd
          rcases List.mem_cons.mp hmd with heq | hmd2
          · exact ⟨k, List.mem_cons_self _ _, by rw [heq], by rw [heq]⟩
          · obtain ⟨k2, hk2, hk3⟩ := h2 md hmd2
            exact ⟨k2, List.mem_cons_of_mem _ hk2, hk3⟩
      · have hadd : add_metadata_row i ("pdf." ++ strLower k) v s = s := by
          unfold add_metadata_row
          rw [if_neg hcond]
        rw [hadd]
        obtain ⟨tail, h1, h2⟩ := ih s (log ++ [EsCall.updateMeta i ("pdf." ++ strLower k) v])
        exact ⟨tail, h1, fun md hmd =>
          (h2 md hmd).elim (fun k2 hk2 => ⟨k2, List.mem_cons_of_mem _ hk2.1, hk2.2⟩)⟩
theorem upload_doc_metadata (tm : String → Option String) (pf : String → PdfField)
    (es : List Nat) (f : UploadFile) (i : Nat) (s : State) :
    ∃ tail : List MetadataRow,
      (upload_doc tm pf es f i s).1.metadata
        = (s.metadata
            ++ [⟨i, "filename", toString i ++ "." ++ fileExtOf f.filename i⟩])
          ++ tail ∧
      countKeyRows "filename" i tail = 0 ∧
      countKeyRows "mimetype" i tail ≤ 1 := by
  have hpdfkeys1 : ∀ k ∈ pdfFields, ("pdf." ++ strLower k) ≠ "filename" := by decide
  have hpdfkeys2 : ∀ k ∈ pdfFields, ("pdf." ++ strLower k) ≠ "mimetype" := by decide
  rcases htm : tm ("." ++ fileExtOf f.filename i) with _ | mt
  · refine ⟨[], ?_, by simp [countKeyRows], by simp [countKeyRows]⟩
    simp only [upload_doc, htm]
    rw [if_neg (by decide)]
    simp
  · by_cases hpdf : mt = "application/pdf"
    · subst hpdf
      obtain ⟨ptail, h1, h2⟩ := pdfExtract_metadata_shape pf i pdfFields
        ⟨s.documents,
         (s.metadata ++ [⟨i, "filename", toString i ++ "." ++ fileExtOf f.filename i⟩])
           ++ [⟨i, "mimetype", "application/pdf"⟩],
         blobAdd s.blobs (toString i ++ "." ++ fileExtOf f.filename i)⟩ []
      refine ⟨⟨i, "mimetype", "application/pdf"⟩ :: ptail, ?_, ?_, ?_⟩
      · simp only [upload_doc, htm]
        rw [if_pos (by simp)]
        rw [h1]
        simp
      · have hnil : (⟨i, "mimetype", "application/pdf"⟩ :: ptail).filter
            (fun md => md.document == i && md.key == "filename") = [] := by
          apply List.filter_eq_nil_iff.mpr
          intro md hmd
          rcases List.mem_cons.mp hmd with heq | hmd2
          · subst heq; simp
          · obtain ⟨k, hk, hkey, _⟩ := h2 md hmd2
            simp [hkey, hpdfkeys1 k hk]
        unfold countKeyRows
        rw [hnil]
        rfl
      · have h0 : countKeyRows "mimetype" i ptail = 0 := by
          unfold countKeyRows
          rw [List.filter_eq_nil_iff.mpr (fun md hmd => by
            obtain ⟨k, hk, hkey, _⟩ := h2 md hmd
            simp [hkey, hpdfkeys2 k hk])]
          rfl
        have hc : countKeyRows "mimetype" i
            (⟨i, "mimetype", "application/pdf"⟩ :: ptail)
            = countKeyRows "mimetype" i [⟨i, "mimetype", "application/pdf"⟩]
              + countKeyRows "mimetype" i ptail := by
          rw [← countKeyRows_append]
          rfl
        rw [hc, h0]
        simp [countKeyRows]
    · refine ⟨[⟨i, "mimetype", mt⟩], ?_, by simp [countKeyRows], by simp [countKeyRows]⟩
      simp only [upload_doc, htm]
      rw [if_neg (by simp [hpdf])]

/-- Claim C7 (amended): every upload_doc call appends exactly one filename
    Metadata row for the id (and at most one mimetype row); hence invoking
    it again for an id that already has a filename row leaves two such rows:
    the at-most-one invariant is not preserved by repeated uploads. -/
theorem upload_filename_row_count (tm : String → Option String)
    (pf : String → PdfField) (es : List Nat) (f : UploadFile) (i : Nat) (s : State) :
    countRows "filename" i (upload_doc tm pf es f i s).1
      = countRows "filename" i s + 1 ∧
    countRows "mimetype" i (upload_doc tm pf es f i s).1
      ≤ countRows "mimetype" i s + 1 := by
  obtain ⟨tail, hmeta, h0, h1⟩ := upload_doc_metadata tm pf es f i s
  have hfn1 : countKeyRows "filename" i
      [⟨i, "filename", toString i ++ "." ++ fileExtOf f.filename i⟩] = 1 := by
    simp [countKeyRows]
  have hfn2 : countKeyRows "mimetype" i
      [⟨i, "filename", toString i ++ "." ++ fileExtOf f.filename i⟩] = 0 := by
    simp [countKeyRows]
  unfold countRows
  simp only [hmeta, countKeyRows_append]
  omega

/-- Claim C7 counterexample: uploading the same file twice for id 1 leaves
    two filename Metadata rows for document 1, violating the at-most-one
    invariant the claim says every metadata-writing operation preserves. -/
theorem upload_filename_dup_cex :
    countRows "filename" 1
      ((upload_doc tmNone pdfAbsent [] ⟨"a.bin", "x"⟩ 1
        ((upload_doc tmNone pdfAbsent [] ⟨"a.bin", "x"⟩ 1 emptyState).1)).1) = 2 := by
  decide

/-- Claim C8 (amended): in the plain-text branch, the content pushed to the
    index equals the file text with each individual non-word character
    replaced by one space (a run of several non-word characters therefore
    becomes as many spaces, not one). -/
theorem upload_text_per_char (tm : String → Option String)
    (pf : String → PdfField) (es : List Nat) (f : UploadFile) (i : Nat) (s : State)
    (h : fileExtOf f.filename i ∈ textExts) :
    EsCall.updateContent i (pySubNonWord f.content)
      ∈ (upload_doc tm pf es f i s).2.1 := by
  simp only [upload_doc]
  rw [if_pos h]
  split
  · exact List.mem_append_left _ (List.mem_append_right _ (List.mem_singleton_self _))
  · exact List.mem_append_right _ (List.mem_singleton_self _)

/-- Witness for the amended C8 on a concrete txt upload. -/
theorem upload_text_per_char_witness :
    EsCall.updateContent 7 (pySubNonWord "a!!b")
      ∈ (upload_doc tmNone pdfAbsent [] ⟨"n.txt", "a!!b"⟩ 7 emptyState).2.1 :=
  upload_text_per_char tmNone pdfAbsent [] ⟨"n.txt", "a!!b"⟩ 7 emptyState (by decide)

/-- Claim C8 counterexample: for the text a!!b the code pushes two spaces
    (one per non-word character) where the claim predicts the run collapsed
    to a single space. -/
theorem upload_text_run_cex :
    (upload_doc tmNone pdfAbsent [] ⟨"n.txt", "a!!b"⟩ 7 emptyState).2.1
      = [EsCall.updateContent 7 "a  b"] ∧
    specCollapseNonWordRuns "a!!b" = "a b" ∧
    ("a  b" : String) ≠ "a b" := by
  decide

/-- Claim C9: an uploaded filename with no dot for id 42 is stored as blob
    42.42 with a filename row holding that name; and whenever the MIME
    lookup misses, the metadata gains exactly the filename row and no
    mimetype row. -/
theorem upload_no_ext_spec (tm : String → Option String) (pf : String → PdfField)
    (es : List Nat) (f : UploadFile) (s : State)
    (hdot : f.filename.data.contains '.' = false)
    (hmiss : tm ("." ++ toString (42 : Nat)) = none) :
    ((upload_doc tm pf es f 42 s).2.2 = "42.42" ∧
     "42.42" ∈ (upload_doc tm pf es f 42 s).1.blobs ∧
     (upload_doc tm pf es f 42 s).1.metadata
        = s.metadata ++ [⟨42, "filename", "42.42"⟩]) ∧
    (∀ (f2 : UploadFile) (i2 : Nat) (s2 : State),
        tm ("." ++ fileExtOf f2.filename i2) = none →
        (upload_doc tm pf es f2 i2 s2).1.metadata
          = s2.metadata ++ [⟨i2, "filename",
              toString i2 ++ "." ++ fileExtOf f2.filename i2⟩]) := by
  have hgen : ∀ (f2 : UploadFile) (i2 : Nat) (s2 : State),
      tm ("." ++ fileExtOf f2.filename i2) = none →
      (upload_doc tm pf es f2 i2 s2).1.metadata
        = s2.metadata ++ [⟨i2, "filename",
            toString i2 ++ "." ++ fileExtOf f2.filename i2⟩] := by
    intro f2 i2 s2 hm
    simp only [upload_doc, hm]
    rw [if_neg (by decide)]
  have hdot2 : '.' ∉ f.filename.data := by
    simpa using hdot
  have hext : fileExtOf f.filename 42 = toString (42 : Nat) := by
    simp [fileExtOf, hdot2]
  have hm2 : tm ("." ++ fileExtOf f.filename 42) = none := by
    rw [hext]; exact hmiss
  have hname : toString (42 : Nat) ++ "." ++ toString (42 : Nat) = "42.42" := by decide
  refine ⟨⟨?_, ?_, ?_⟩, hgen⟩
  · simp only [upload_doc, hm2]
    rw [hext, hname]
  · simp only [upload_doc, hm2]
    rw [if_neg (by decide)]
    rw [hext, hname]
    exact mem_blobAdd_self s.blobs "42.42"
  · rw [hgen f 42 s hm2, hext, hname]

/-- Witness for C9 on a concrete extension-free upload. -/
theorem upload_no_ext_spec_witness :
    (upload_doc tmNone pdfAbsent [] ⟨"noext", "c"⟩ 42 emptyState).2.2 = "42.42" ∧
    "42.42" ∈ (upload_doc tmNone pdfAbsent [] ⟨"noext", "c"⟩ 42 emptyState).1.blobs ∧
    (upload_doc tmNone pdfAbsent [] ⟨"noext", "c"⟩ 42 emptyState).1.metadata
      = emptyState.metadata ++ [⟨42, "filename", "42.42"⟩] :=
  (upload_no_ext_spec tmNone pdfAbsent [] ⟨"noext", "c"⟩ emptyState
    (by decide) rfl).1

theorem pdfExtract_log_mono (pf : String → PdfField) (i : Nat) :
    ∀ (keys : List String) (s : State) (log : List EsCall) (e : EsCall),
      e ∈ log → e ∈ (pdfExtract pf i keys s log).2 := by
  intro keys
  induction keys with
  | nil => intro s log e he; exact he
  | cons k rest ih =>
    intro s log e he
    cases hpf : pf k with
    | absent =>
      have hstep : pdfExtract pf i (k :: rest) s log = pdfExtract pf i rest s log := by
        simp only [pdfExtract, hpf]
      rw [hstep]
      exact ih s log e he
    | undecodable =>
      have hstep : pdfExtract pf i (k :: rest) s log = pdfExtract pf i rest s log := by
        simp only [pdfExtract, hpf]
      rw [hstep]
      exact ih s log e he
    | val v =>
      have hstep : pdfExtract pf i (k :: rest) s log
          = pdfExtract pf i rest (add_metadata_row i ("pdf." ++ strLower k) v s)
              (log ++ [EsCall.updateMeta i ("pdf." ++ strLower k) v]) := by
        simp only [pdfExtract, hpf]
      rw [hstep]
      exact ih _ _ e (List.mem_append_left _ he)

theorem pdfExtract_mem_log (pf : String → PdfField) (i : Nat) (K : String)
    (hv : pf K = PdfField.val "") :
    ∀ (keys : List String) (s : State) (log : List EsCall), K ∈ keys →
      EsCall.updateMeta i ("pdf." ++ strLower K) "" ∈ (pdfExtract pf i keys s log).2 := by
  intro keys
  induction keys with
  | nil => intro s log hK; exact absurd hK (List.not_mem_nil K)
  | cons k rest ih =>
    intro s log hK
    rcases List.mem_cons.mp hK with rfl | hK2
    · have hstep : pdfExtract pf i (K :: rest) s log
          = pdfExtract pf i rest (add_metadata_row i ("pdf." ++ strLower K) "" s)
              (log ++ [EsCall.updateMeta i ("pdf." ++ strLower K) ""]) := by
        simp only [pdfExtract, hv]
      rw [hstep]
      exact pdfExtract_log_mono pf i rest _ _ _
        (List.mem_append_right _ (List.mem_singleton_self _))
    · cases hpf : pf k with
      | absent =>
        have hstep : pdfExtract pf i (k :: rest) s log = pdfExtract pf i rest s log := by
          simp only [pdfExtract, hpf]
        rw [hstep]
        exact ih s log hK2
      | undecodable =>
        have hstep : pdfExtract pf i (k :: rest) s log = pdfExtract pf i rest s log := by
          simp only [pdfExtract, hpf]
        rw [hstep]
        exact ih s log hK2
      | val v =>
        have hstep : pdfExtract pf i (k :: rest) s log
            = pdfExtract pf i rest (add_metadata_row i ("pdf." ++ strLower k) v s)
                (log ++ [EsCall.updateMeta i ("pdf." ++ strLower k) v]) := by
          simp only [pdfExtract, hpf]
        rw [hstep]
        exact ih _ _ hK2

theorem pdfExtract_filter_key (pf : String → PdfField) (i : Nat) (keyname : String) :
    ∀ (keys : List String) (s : State) (log : List EsCall),
      (∀ k ∈ keys, ("pdf." ++ strLower k) = keyname → pf k = PdfField.val "") →
      ((pdfExtract pf i keys s log).1.metadata.filter (fun md => md.key == keyname))
        = s.metadata.filter (fun md => md.key == keyname) := by
  intro keys
  induction keys with
  | nil => intro s log _; rfl
  | cons k rest ih =>
    intro s log h
    have hrest := fun k2 hk2 => h k2 (List.mem_cons_of_mem _ hk2)
    cases hpf : pf k with
    | absent =>
      have hstep : pdfExtract pf i (k :: rest) s log = pdfExtract pf i rest s log := by
        simp only [pdfExtract, hpf]
      rw [hstep]
      exact ih s log hrest
    | undecodable =>
      have hstep : pdfExtract pf i (k :: rest) s log = pdfExtract pf i rest s log := by
        simp only [pdfExtract, hpf]
      rw [hstep]
      exact ih s log hrest
    | val v =>
      have hstep : pdfExtract pf i (k :: rest) s log
          = pdfExtract pf i rest (add_metadata_row i ("pdf." ++ strLower k) v s)
              (log ++ [EsCall.updateMeta i ("pdf." ++ strLower k) v]) := by
        simp only [pdfExtract, hpf]
      rw [hstep]
      rw [ih _ _ hrest]
      by_cases hkn : ("pdf." ++ strLower k) = keyname
      · have hv0 : v = "" := by
          have := h k (List.mem_cons_self _ _) hkn
          rw [hpf] at this
          injection this
        subst hv0
        have hadd : add_metadata_row i ("pdf." ++ strLower k) "" s = s := by
          unfold add_metadata_row
          rw [if_neg (by simp)]
        rw [hadd]
      · have hadd : add_metadata_row i ("pdf." ++ strLower k) v s
            = ⟨s.documents, s.metadata ++ [⟨i, "pdf." ++ strLower k, v⟩], s.blobs⟩
            ∨ add_metadata_row i ("pdf." ++ strLower k) v s = s := by
          unfold add_metadata_row
          split
          · exact Or.inl rfl
          · exact Or.inr rfl
        have hbne : ¬ (("pdf." ++ strLower k) == keyname) = true := by
          simpa using hkn
        rcases hadd with hadd | hadd <;> rw [hadd]
        rw [show (⟨s.documents, s.metadata ++ [⟨i, "pdf." ++ strLower k, v⟩],
            s.blobs⟩ : State).metadata
          = s.metadata ++ [(⟨i, "pdf." ++ strLower k, v⟩ : MetadataRow)] from rfl]
        rw [List.filter_append, List.filter_singleton]
        simp [hbne]

/-- Claim C10: for a PDF upload, a recognised info field whose extracted
    value is the empty string produces no Metadata row for its pdf-prefixed
    key, yet the index update carrying that empty value is still issued, so
    the relational store and the index diverge for that field. -/
theorem upload_pdf_empty_value_spec (tm : String → Option String)
    (pf : String → PdfField) (es : List Nat) (f : UploadFile) (i : Nat)
    (s : State) (K : String) (hK : K ∈ pdfFields)
    (hpdf : tm ("." ++ fileExtOf f.filename i) = some "application/pdf")
    (hval : pf K = PdfField.val "") :
    EsCall.updateMeta i ("pdf." ++ strLower K) "" ∈ (upload_doc tm pf es f i s).2.1 ∧
    (upload_doc tm pf es f i s).1.metadata.filter
        (fun md => md.key == ("pdf." ++ strLower K))
      = s.metadata.filter (fun md => md.key == ("pdf." ++ strLower K)) := by
  have hK5 : K = "Producer" ∨ K = "Creator" ∨ K = "Title" ∨ K = "Keywords"
      ∨ K = "Subject" := by
    simpa [pdfFields] using hK
  have hko : ∀ k ∈ pdfFields, ("pdf." ++ strLower k) = ("pdf." ++ strLower K) →
      pf k = PdfField.val "" := by
    intro k hk heq
    have hk5 : k = "Producer" ∨ k = "Creator" ∨ k = "Title" ∨ k = "Keywords"
        ∨ k = "Subject" := by
      simpa [pdfFields] using hk
    rcases hK5 with rfl | rfl | rfl | rfl | rfl <;>
      rcases hk5 with rfl | rfl | rfl | rfl | rfl <;>
      first
        | exact hval
        | (exfalso; revert heq; decide)
  have hbeq : ((some "application/pdf" : Option String) == some "application/pdf")
      = true := by simp
  have hne1 : ¬ (("filename" : String) == ("pdf." ++ strLower K)) = true := by
    rcases hK5 with rfl | rfl | rfl | rfl | rfl <;> decide
  have hne2 : ¬ (("mimetype" : String) == ("pdf." ++ strLower K)) = true := by
    rcases hK5 with rfl | rfl | rfl | rfl | rfl <;> decide
  constructor
  · have hmem := pdfExtract_mem_log pf i K hval pdfFields
      ⟨s.documents,
       (s.metadata ++ [⟨i, "filename", toString i ++ "." ++ fileExtOf f.filename i⟩])
         ++ [⟨i, "mimetype", "application/pdf"⟩],
       blobAdd s.blobs (toString i ++ "." ++ fileExtOf f.filename i)⟩ [] hK
    simp only [upload_doc, hpdf, hbeq, if_true]
    split
    · split
      · exact List.mem_append_left _ (List.mem_append_left _ hmem)
      · exact List.mem_append_left _ hmem
    · split
      · exact List.mem_append_left _ hmem
      · exact hmem
  · simp only [upload_doc, hpdf, hbeq, if_true]
    rw [pdfExtract_filter_key pf i _ pdfFields _ [] hko]
    rw [show (⟨s.documents,
        (s.metadata ++ [⟨i, "filename", toString i ++ "." ++ fileExtOf f.filename i⟩])
          ++ [⟨i, "mimetype", "application/pdf"⟩],
        blobAdd s.blobs (toString i ++ "." ++ fileExtOf f.filename i)⟩ : State).metadata
      = (s.metadata
          ++ [(⟨i, "filename", toString i ++ "." ++ fileExtOf f.filename i⟩ : MetadataRow)])
        ++ [(⟨i, "mimetype", "application/pdf"⟩ : MetadataRow)] from rfl]
    rw [List.filter_append, List.filter_append, List.filter_singleton,
      List.filter_singleton]
    simp [hne1, hne2]

/-- Witness for C10: a PDF whose Title decodes to the empty string. -/
theorem upload_pdf_empty_value_spec_witness :
    EsCall.updateMeta 3 ("pdf." ++ strLower "Title") ""
      ∈ (upload_doc tmPdf pdfEmptyTitle [] ⟨"doc.pdf", "x"⟩ 3 emptyState).2.1 ∧
    (upload_doc tmPdf pdfEmptyTitle [] ⟨"doc.pdf", "x"⟩ 3 emptyState).1.metadata.filter
        (fun md => md.key == ("pdf." ++ strLower "Title"))
      = emptyState.metadata.filter (fun md => md.key == ("pdf." ++ strLower "Title")) :=
  upload_pdf_empty_value_spec tmPdf pdfEmptyTitle [] ⟨"doc.pdf", "x"⟩ 3 emptyState
    "Title" (by decide) (by decide) (by decide)
theorem lookupVal_dictSet_self (m : List (String × String)) (k v : String) :
    lookupVal (dictSet m k v) k = some v := by
  induction m with
  | nil => simp [dictSet, lookupVal]
  | cons kv rest ih =>
    obtain ⟨k0, v0⟩ := kv
    by_cases h : k0 = k
    · subst h
      simp [dictSet, lookupVal]
    · simp only [dictSet]
      rw [if_neg h]
      unfold lookupVal
      rw [List.find?_cons_of_neg _ (by simpa using h)]
      exact ih

theorem lookupVal_dictSet_ne (m : List (String × String)) (k1 k v : String)
    (hne : k1 ≠ k) : lookupVal (dictSet m k1 v) k = lookupVal m k := by
  induction m with
  | nil => simp [dictSet, lookupVal, hne]
  | cons kv rest ih =>
    obtain ⟨k0, v0⟩ := kv
    by_cases h : k0 = k1
    · subst h
      have hd : dictSet ((k0, v0) :: rest) k0 v = (k0, v) :: rest := by
        simp [dictSet]
      rw [hd]
      unfold lookupVal
      rw [List.find?_cons_of_neg _ (by simpa using hne),
        List.find?_cons_of_neg _ (by simpa using hne)]
    · simp only [dictSet]
      rw [if_neg h]
      by_cases h2 : k0 = k
      · subst h2
        unfold lookupVal
        rw [List.find?_cons_of_pos _ (by simp), List.find?_cons_of_pos _ (by simp)]
      · unfold lookupVal
        rw [List.find?_cons_of_neg _ (by simpa using h2),
          List.find?_cons_of_neg _ (by simpa using h2)]
        exact ih

theorem lastValue_cons_ne (r : MetadataRow) (rest : List MetadataRow) (k : String)
    (h : ¬(r.key == k) = true) :
    lastValue (r :: rest) k = lastValue rest k := by
  simp only [lastValue]
  rw [if_neg h, Option.or_none]

theorem lastValue_cons_eq (r : MetadataRow) (rest : List MetadataRow) (k : String)
    (h : (r.key == k) = true) :
    lastValue (r :: rest) k = (lastValue rest k).or (some r.value) := by
  simp only [lastValue]
  rw [if_pos h]

theorem collectMeta_lookup (doc : Doc) (k : String) (hk1 : k ≠ "tag")
    (hk2 : k ∉ dataKeysOf doc.parent) :
    ∀ (rows : List MetadataRow) (ts : List String) (ms : List (String × String)),
      lookupVal ((rows.foldl (collectMetaStep doc) (ts, ms)).2) k
        = (lastValue rows k).or (lookupVal ms k) := by
  intro rows
  induction rows with
  | nil =>
    intro ts ms
    simp [lastValue, Option.none_or]
  | cons r rest ih =>
    intro ts ms
    rw [List.foldl_cons]
    by_cases hr1 : r.key = "tag"
    · have hstep : collectMetaStep doc (ts, ms) r = (ts ++ [r.value], ms) := by
        unfold collectMetaStep
        rw [if_pos hr1]
      have hrk : ¬(r.key == k) = true := by
        rw [hr1]
        simp
        exact fun e => hk1 e.symm
      rw [hstep, ih, lastValue_cons_ne r rest k hrk]
    · by_cases hr2 : r.key ∈ dataKeysOf doc.parent
      · have hstep : collectMetaStep doc (ts, ms) r = (ts, ms) := by
          unfold collectMetaStep
          rw [if_neg hr1, if_pos hr2]
        have hrk : ¬(r.key == k) = true := by
          simp only [beq_iff_eq]
          intro e
          exact hk2 (e ▸ hr2)
        rw [hstep, ih, lastValue_cons_ne r rest k hrk]
      · have hstep : collectMetaStep doc (ts, ms) r
            = (ts, dictSet ms r.key r.value) := by
          unfold collectMetaStep
          rw [if_neg hr1, if_neg hr2]
        by_cases hrk : r.key = k
        · rw [hstep, ih, hrk, lookupVal_dictSet_self,
            lastValue_cons_eq r rest k (by simp [hrk]), Option.or_assoc]
          rfl
        · rw [hstep, ih, lookupVal_dictSet_ne ms r.key k r.value hrk,
            lastValue_cons_ne r rest k (by simpa using hrk)]

theorem retrieve_noatt_meta (doc_id : Nat) (s : State) (dd : DocData)
    (h : retrieve_document_noatt doc_id s = some dd) :
    ∃ doc, s.documents.find? (fun d => d.id == doc_id) = some doc ∧
      doc.parent = dd.parent ∧
      dd.meta = (collectMeta doc
        (s.metadata.filter (fun md => md.document == doc_id))).2 := by
  unfold retrieve_document_noatt at h
  cases h3 : s.documents.find? (fun d => d.id == doc_id) with
  | none => rw [h3] at h; exact absurd h (by simp)
  | some doc =>
    rw [h3] at h
    dsimp only at h
    refine ⟨doc, rfl, ?_, ?_⟩
    all_goals
      split at h
      · exact absurd h (by simp)
      · injection h with h5
        subst h5
        rfl

/-- Claim C2 (amended): in the meta map retrieve_document returns, a later
    metadata row with a duplicate key overwrites the earlier value (the
    membership test is against the outer result dict, not the meta dict),
    so the last-seen value wins for any key that is not the tag key and
    does not collide with an outer result key. -/
theorem retrieve_meta_last_wins (s : State) (doc_id : Nat) (dd : DocData)
    (atts : List DocData) (k : String)
    (h : retrieve_document doc_id s = some (dd, atts))
    (hk1 : k ≠ "tag") (hk2 : k ∉ dataKeysOf dd.parent) :
    lookupVal dd.meta k
      = lastValue (s.metadata.filter (fun md => md.document == doc_id)) k := by
  unfold retrieve_document at h
  cases h1 : retrieve_document_noatt doc_id s with
  | none => rw [h1] at h; exact absurd h (by simp)
  | some dd0 =>
    rw [h1] at h
    dsimp only at h
    cases h2 : (s.documents.filter (fun d => d.parent == some doc_id)).mapM
        (fun c => retrieve_document_noatt c.id s) with
    | none => rw [h2] at h; exact absurd h (by simp)
    | some atts0 =>
      rw [h2] at h
      simp only [Option.some.injEq, Prod.mk.injEq] at h
      obtain ⟨hdd, _⟩ := h
      subst hdd
      obtain ⟨doc, hfind, hparent, hmeta⟩ := retrieve_noatt_meta doc_id s dd0 h1
      rw [hmeta]
      have hk2' : k ∉ dataKeysOf doc.parent := by rw [hparent]; exact hk2
      have := collectMeta_lookup doc k hk1 hk2'
        (s.metadata.filter (fun md => md.document == doc_id)) [] []
      rw [show collectMeta doc (s.metadata.filter (fun md => md.document == doc_id))
          = (s.metadata.filter (fun md => md.document == doc_id)).foldl
              (collectMetaStep doc) ([], []) from rfl]
      rw [this]
      rw [show lookupVal ([] : List (String × String)) k = none from rfl,
        Option.or_none]

/-- Claim C2 counterexample: two rows with the same key for document 1
    yield the value of the second row in the returned meta map, not the
    first: later duplicates are not dropped. -/
theorem retrieve_dup_key_cex :
    (retrieve_document 1 s2ex).map (fun r => r.1.meta) = some [("k", "v2")] ∧
    [(("k" : String), ("v2" : String))] ≠ [("k", "v1")] := by
  decide

/-- Witness for the amended C2 on the concrete duplicate-key state. -/
theorem retrieve_meta_last_wins_witness :
    lookupVal dd2ex.meta "k"
      = lastValue (s2ex.metadata.filter (fun md => md.document == 1)) "k" ∧
    lastValue (s2ex.metadata.filter (fun md => md.document == 1)) "k" = some "v2" :=
  ⟨retrieve_meta_last_wins s2ex 1 dd2ex [] "k" (by decide) (by decide) (by decide),
   by decide⟩

theorem createTagStep_fold (nid : Nat) :
    ∀ (tags : List (Option String)) (st : State),
      tags.foldl (createTagStep nid) st
        = ⟨st.documents, st.metadata ++ storedTagRows nid tags, st.blobs⟩ := by
  intro tags
  induction tags with
  | nil => intro st; simp [storedTagRows]
  | cons t rest ih =>
    intro st
    rw [List.foldl_cons]
    by_cases ht : truthyTag t = true
    · have hstep : createTagStep nid st t
          = ⟨st.documents, st.metadata ++ [⟨nid, "tag", pyStrip (t.getD "")⟩],
             st.blobs⟩ := by
        unfold createTagStep
        rw [if_pos ht]
      rw [hstep, ih]
      have hrows : storedTagRows nid (t :: rest)
          = ⟨nid, "tag", pyStrip (t.getD "")⟩ :: storedTagRows nid rest := by
        simp [storedTagRows, List.filterMap_cons, ht]
      rw [hrows]
      simp
    · have hstep : createTagStep nid st t = st := by
        unfold createTagStep
        rw [if_neg ht]
      have hrows : storedTagRows nid (t :: rest) = storedTagRows nid rest := by
        simp [storedTagRows, List.filterMap_cons, ht]
      rw [hstep, ih, hrows]

theorem foldl_max_bound :
    ∀ (l : List Doc) (a : Nat),
      a ≤ l.foldl (fun acc d => max acc d.id) a ∧
      ∀ d ∈ l, d.id ≤ l.foldl (fun acc d => max acc d.id) a := by
  intro l
  induction l with
  | nil => intro a; exact ⟨le_refl a, fun d hd => absurd hd (List.not_mem_nil d)⟩
  | cons d rest ih =>
    intro a
    rw [List.foldl_cons]
    refine ⟨le_trans (Nat.le_max_left a d.id) (ih (max a d.id)).1, ?_⟩
    intro d2 hd2
    rcases List.mem_cons.mp hd2 with rfl | hd3
    · exact le_trans (Nat.le_max_right a d2.id) (ih (max a d2.id)).1
    · exact (ih (max a d.id)).2 d2 hd3

theorem lt_nextId (s : State) : ∀ d ∈ s.documents, d.id < nextId s := by
  intro d hd
  have := (foldl_max_bound s.documents 0).2 d hd
  unfold nextId
  omega

theorem storedTagRows_mem (nid : Nat) (tags : List (Option String)) :
    ∀ r ∈ storedTagRows nid tags, r.document = nid ∧ r.key = "tag" := by
  intro r hr
  obtain ⟨t, _, ht⟩ := List.mem_filterMap.mp hr
  by_cases htr : truthyTag t = true
  · rw [if_pos htr] at ht
    injection ht with ht2
    rw [← ht2]
    exact ⟨rfl, rfl⟩
  · rw [if_neg htr] at ht
    exact absurd ht (by simp)

theorem storedTagRows_values (nid : Nat) :
    ∀ (tags : List (Option String)),
      (storedTagRows nid tags).map (·.value) = storedTagValues tags := by
  intro tags
  induction tags with
  | nil => rfl
  | cons t rest ih =>
    by_cases htr : truthyTag t = true
    · simp only [storedTagRows, storedTagValues, List.filterMap_cons, if_pos htr]
      rw [List.map_cons]
      have := ih
      simp only [storedTagRows, storedTagValues] at this
      rw [this]
    · simp only [storedTagRows, storedTagValues, List.filterMap_cons, if_neg htr]
      have := ih
      simp only [storedTagRows, storedTagValues] at this
      rw [this]

theorem collectMeta_all_tags (doc : Doc) :
    ∀ (rows : List MetadataRow) (ts : List String) (ms : List (String × String)),
      (∀ r ∈ rows, r.key = "tag") →
      rows.foldl (collectMetaStep doc) (ts, ms) = (ts ++ rows.map (·.value), ms) := by
  intro rows
  induction rows with
  | nil => intro ts ms _; simp
  | cons r rest ih =>
    intro ts ms h
    rw [List.foldl_cons]
    have hstep : collectMetaStep doc (ts, ms) r = (ts ++ [r.value], ms) := by
      unfold collectMetaStep
      rw [if_pos (h r (List.mem_cons_self _ _))]
    rw [hstep, ih _ _ (fun r2 hr2 => h r2 (List.mem_cons_of_mem _ hr2))]
    simp

/-- Claim C5 (amended): create_document inserts one tag row for each truthy
    tag entry (non-null and non-empty before stripping), storing the
    stripped value in list order; a whitespace-only entry is truthy and so
    yields a row whose stored value is empty.  Retrieving a fresh document
    returns exactly those stripped values as its tags. -/
theorem create_tags_amended (s : State) (title author doi ty : String)
    (tags : List (Option String))
    (hfresh : ∀ md ∈ s.metadata, md.document ≠ nextId s)
    (hfresh2 : ∀ d ∈ s.documents, d.parent ≠ some (nextId s)) :
    (create_document title author doi tags ty none s).2.metadata
      = s.metadata ++ storedTagRows (nextId s) tags ∧
    ∃ dd : DocData,
      retrieve_document (create_document title author doi tags ty none s).1
          (create_document title author doi tags ty none s).2 = some (dd, []) ∧
      dd.tags = storedTagValues tags := by
  have hcd : create_document title author doi tags ty none s
      = (nextId s,
         ⟨s.documents ++ [⟨nextId s, ty, title, author, doi, none, none⟩],
          s.metadata ++ storedTagRows (nextId s) tags, s.blobs⟩) := by
    unfold create_document
    dsimp only
    rw [createTagStep_fold]
  rw [hcd]
  refine ⟨rfl, ?_⟩
  have hfind : (s.documents
      ++ [(⟨nextId s, ty, title, author, doi, none, none⟩ : Doc)]).find?
        (fun d => d.id == nextId s)
      = some ⟨nextId s, ty, title, author, doi, none, none⟩ := by
    rw [find?_append_none _ _ (List.find?_eq_none.mpr (fun d hd => by
      simp only [beq_iff_eq]
      exact Nat.ne_of_lt (lt_nextId s d hd)))]
    rw [List.find?_cons_of_pos _ (by simp)]
  have hmds : ((s.metadata ++ storedTagRows (nextId s) tags).filter
      (fun md => md.document == nextId s)) = storedTagRows (nextId s) tags := by
    rw [List.filter_append]
    rw [List.filter_eq_nil_iff.mpr (fun md hmd => by
      simp only [beq_iff_eq]
      exact hfresh md hmd)]
    rw [List.filter_eq_self.mpr (fun r hr => by
      simp only [beq_iff_eq]
      exact (storedTagRows_mem (nextId s) tags r hr).1)]
    rfl
  have hcoll := collectMeta_all_tags ⟨nextId s, ty, title, author, doi, none, none⟩
    (storedTagRows (nextId s) tags) [] []
    (fun r hr => (storedTagRows_mem (nextId s) tags r hr).2)
  have hnoatt : retrieve_document_noatt (nextId s)
      ⟨s.documents ++ [⟨nextId s, ty, title, author, doi, none, none⟩],
       s.metadata ++ storedTagRows (nextId s) tags, s.blobs⟩
      = some ⟨nextId s, ty, title, author, doi, none, none, none,
          storedTagValues tags, [],
          get_filename (nextId s)
            ⟨s.documents ++ [⟨nextId s, ty, title, author, doi, none, none⟩],
             s.metadata ++ storedTagRows (nextId s) tags, s.blobs⟩⟩ := by
    unfold retrieve_document_noatt
    rw [hfind]
    dsimp only
    rw [hmds]
    rw [show collectMeta ⟨nextId s, ty, title, author, doi, none, none⟩
        (storedTagRows (nextId s) tags)
      = (storedTagRows (nextId s) tags).foldl
          (collectMetaStep ⟨nextId s, ty, title, author, doi, none, none⟩)
          ([], []) from rfl]
    rw [hcoll]
    rw [storedTagRows_values]
    rfl
  have hchildren : ((s.documents
      ++ [(⟨nextId s, ty, title, author, doi, none, none⟩ : Doc)]).filter
        (fun d => d.parent == some (nextId s))) = [] := by
    rw [List.filter_append]
    rw [List.filter_eq_nil_iff.mpr (fun d hd => by
      simp only [beq_iff_eq]
      exact hfresh2 d hd)]
    simp
  have hretr : retrieve_document (nextId s)
      ⟨s.documents ++ [⟨nextId s, ty, title, author, doi, none, none⟩],
       s.metadata ++ storedTagRows (nextId s) tags, s.blobs⟩
      = some (⟨nextId s, ty, title, author, doi, none, none, none,
          storedTagValues tags, [],
          get_filename (nextId s)
            ⟨s.documents ++ [⟨nextId s, ty, title, author, doi, none, none⟩],
             s.metadata ++ storedTagRows (nextId s) tags, s.blobs⟩⟩, []) := by
    unfold retrieve_document
    rw [hnoatt]
    dsimp only
    rw [hchildren]
    rfl
  exact ⟨_, hretr, rfl⟩

/-- Claim C5 counterexample: a whitespace-only tag is truthy before
    stripping, so a row with empty value is inserted and retrieved, though
    the claim says rows are inserted exactly for entries that are non-empty
    after trimming. -/
theorem create_blank_tag_cex :
    (create_document "" "" "" [some " "] "doc" none emptyState).2.metadata
      = [⟨1, "tag", ""⟩] ∧
    pyStrip " " = "" ∧
    (retrieve_document 1
        (create_document "" "" "" [some " "] "doc" none emptyState).2).map
      (fun r => r.1.tags) = some [""] := by
  decide

/-- Witness for the amended C5 on the concrete example of the spec. -/
theorem create_tags_amended_witness :
    (create_document "" "" "" [some "a", some " b ", some "", none] "doc" none
        emptyState).2.metadata
      = emptyState.metadata ++ storedTagRows (nextId emptyState)
          [some "a", some " b ", some "", none] ∧
    (∃ dd : DocData,
      retrieve_document
          (create_document "" "" "" [some "a", some " b ", some "", none] "doc"
            none emptyState).1
          (create_document "" "" "" [some "a", some " b ", some "", none] "doc"
            none emptyState).2 = some (dd, []) ∧
      dd.tags = storedTagValues [some "a", some " b ", some "", none]) ∧
    storedTagValues [some "a", some " b ", some "", none] = ["a", "b"] := by
  obtain ⟨h1, h2⟩ := create_tags_amended emptyState "" "" "" "doc"
    [some "a", some " b ", some "", none] (by decide) (by decide)
  exact ⟨h1, h2, by decide⟩
